import Mathlib

/-!
# Verification of the ClearMyBoss incremental review pipeline

A shallow embedding of the core algorithms of the ClearMyBoss repository
(`src/review.py`, `src/google_docs.py`, `src/groq_client.py`) together with
proofs of the specification claims about them.

Python strings are modelled as lists of Unicode code points (`List Char`),
so that `len` is list length and indexing/slicing are `List.take`/`List.drop`.
Python `int` arithmetic on indices is modelled with `Nat`/`Int` as noted at
each definition.  Fallible operations are modelled with `Except`.
-/

namespace ClearMyBoss

/-- Model of a Python `str`: the sequence of its Unicode code points. -/
abbrev PyStr := List Char

/-- UTF-8 encoding of a single code point.  Bytes are modelled as naturals
(always `< 256`); shifts are written with `/`, `%` of powers of two. -/
def utf8EncodeChar (c : Char) : List Nat :=
  if c.toNat < 0x80 then [c.toNat]
  else if c.toNat < 0x800 then [0xC0 + c.toNat / 64, 0x80 + c.toNat % 64]
  else if c.toNat < 0x10000 then
    [0xE0 + c.toNat / 4096, 0x80 + c.toNat / 64 % 64, 0x80 + c.toNat % 64]
  else
    [0xF0 + c.toNat / 262144, 0x80 + c.toNat / 4096 % 64, 0x80 + c.toNat / 64 % 64,
      0x80 + c.toNat % 64]

/-- Python `s.encode("utf-8")` as a byte list. -/
def encodeStr (s : PyStr) : List Nat := (s.map utf8EncodeChar).flatten

/-- Number of bytes of the UTF-8 encoding of a string
(Python `len(s.encode("utf-8"))`). -/
def utf8Len (s : PyStr) : Nat := (encodeStr s).length

/-- Is `b` a UTF-8 continuation byte (`0x80..0xBF`)? -/
def isCont (b : Nat) : Bool := decide (0x80 ≤ b) && decide (b < 0xC0)

/-- One step of Python's UTF-8 decoder with `errors="ignore"`: valid sequences
are decoded, malformed or truncated sequences are dropped.  The first argument
is a step counter making the recursion structural; every step consumes at
least one byte, so running it with the byte-list length as the counter (see
`utf8DecodeIgnore`) computes the decoder's fixpoint.  In this repository the
input is always a prefix of a valid encoding, so the only "ignore" case
actually reached is an incomplete multi-byte sequence at the very end, which
is dropped exactly as CPython does. -/
def utf8DecodeIgnoreAux : Nat → List Nat → List Char
  | _, [] => []
  | 0, _ :: _ => []
  | fuel + 1, b :: rest =>
    if b < 0x80 then Char.ofNat b :: utf8DecodeIgnoreAux fuel rest
    else if b < 0xC0 then utf8DecodeIgnoreAux fuel rest
    else if b < 0xE0 then
      match rest with
      | [] => []
      | c1 :: rest1 =>
        if isCont c1 then
          Char.ofNat ((b - 0xC0) * 64 + (c1 - 0x80)) :: utf8DecodeIgnoreAux fuel rest1
        else utf8DecodeIgnoreAux fuel (c1 :: rest1)
    else if b < 0xF0 then
      match rest with
      | c1 :: c2 :: rest2 =>
        if isCont c1 && isCont c2 then
          Char.ofNat ((b - 0xE0) * 4096 + (c1 - 0x80) * 64 + (c2 - 0x80)) ::
            utf8DecodeIgnoreAux fuel rest2
        else utf8DecodeIgnoreAux fuel rest
      | _ => if rest.all isCont then [] else utf8DecodeIgnoreAux fuel rest
    else
      match rest with
      | c1 :: c2 :: c3 :: rest3 =>
        if isCont c1 && isCont c2 && isCont c3 then
          Char.ofNat ((b - 0xF0) * 262144 + (c1 - 0x80) * 4096 + (c2 - 0x80) * 64 +
              (c3 - 0x80)) :: utf8DecodeIgnoreAux fuel rest3
        else utf8DecodeIgnoreAux fuel rest
      | _ => if rest.all isCont then [] else utf8DecodeIgnoreAux fuel rest

/-- Python `bytes.decode("utf-8", errors="ignore")`. -/
def utf8DecodeIgnore (bs : List Nat) : List Char := utf8DecodeIgnoreAux bs.length bs

/-- Python `sep.join(parts)` for a single-character separator. -/
def joinSep (sep : Char) : List PyStr → PyStr
  | [] => []
  | [p] => p
  | p :: q :: rest => p ++ sep :: joinSep sep (q :: rest)

/-- Python `",".join(hashes)`. -/
def joinComma (hs : List PyStr) : PyStr := joinSep ',' hs

/-- Python `"\n".join(parts)`. -/
def joinNl (parts : List PyStr) : PyStr := joinSep '\n' parts

/-- Python `s.split(",")` (split on every comma; `""` yields `[""]`).
The first argument accumulates the current piece in reverse. -/
def splitCommaAux : PyStr → PyStr → List PyStr
  | [], cur => [cur.reverse]
  | c :: rest, cur =>
    if c = ',' then cur.reverse :: splitCommaAux rest [] else splitCommaAux rest (c :: cur)

/-- Python `s.split(",")`. -/
def splitComma (s : PyStr) : List PyStr := splitCommaAux s []

/-! ## `src/review.py`: `_prune_hashes` -/

/-- The `while hashes and len(joined.encode("utf-8")) > max_bytes` loop of
`_prune_hashes`: pop the oldest hash from the front and re-join until the
joined string fits (or the list is exhausted, in which case the join of the
empty list, `""`, is returned). -/
def pruneWhile (maxBytes : Nat) : List PyStr → PyStr
  | [] => []
  | h :: t =>
    if utf8Len (joinComma (h :: t)) > maxBytes then pruneWhile maxBytes t
    else joinComma (h :: t)

/-- `_prune_hashes(hashes, max_bytes)` from `src/review.py`: join with commas,
return as-is when within the byte budget, otherwise evict from the front until
the encoding fits. -/
def prune_hashes (hashes : List PyStr) (maxBytes : Nat) : PyStr :=
  let joined := joinComma hashes
  if utf8Len joined ≤ maxBytes then joined else pruneWhile maxBytes hashes

/-! ## `src/review.py`: `deduplicate_suggestions` -/

/-- The shape of the dict returned by a suggestion function
(`response.get("issue", "")` etc. in `process_changed_ranges`). -/
structure SuggestResp where
  issue : PyStr
  suggestion : PyStr
  severity : PyStr
deriving DecidableEq

/-- A review item dict as built by `process_changed_ranges` and extended with
the `"hash"` key by `deduplicate_suggestions` (`hashVal = none` models the
absence of the `"hash"` key). -/
structure ReviewItem where
  issue : PyStr
  suggestion : PyStr
  severity : PyStr
  quote : PyStr
  start_index : Nat
  end_index : Nat
  hashVal : Option PyStr
deriving DecidableEq

/-- `deduplicate_suggestions(items, existing_hashes)` from `src/review.py`.
The source computes `_hash(item["suggestion"], item["quote"])`, a truncated
SHA-1 digest; the digest function is kept as an explicit parameter `hashFn`
(all claims hold for every choice of it).  The mutated Python set is modelled
by returning the final set alongside the kept items. -/
def deduplicate_suggestions (hashFn : PyStr → PyStr → PyStr) :
    List ReviewItem → Finset PyStr → List ReviewItem × Finset PyStr
  | [], s => ([], s)
  | item :: rest, s =>
    if item.suggestion = [] then deduplicate_suggestions hashFn rest s
    else
      let h := hashFn item.suggestion item.quote
      if h ∈ s then deduplicate_suggestions hashFn rest s
      else
        let r := deduplicate_suggestions hashFn rest (insert h s)
        ({ item with hashVal := some h } :: r.1, r.2)

/-! ## `src/review.py`: `post_comments` content splitting -/

/-- The longest prefix of a string whose UTF-8 encoding fits in `budget`
bytes.  This is what one round of `_chunk_content`'s
`encoded[:MAX_BYTES].decode("utf-8", errors="ignore")` produces. -/
def greedyTake (budget : Nat) : PyStr → PyStr
  | [] => []
  | c :: rest =>
    if (utf8EncodeChar c).length ≤ budget then
      c :: greedyTake (budget - (utf8EncodeChar c).length) rest
    else []

/-- The `while encoded:` loop of `_chunk_content` in `post_comments`
(`src/review.py`): slice at most 4096 bytes, decode ignoring a trailing
incomplete character, and advance by the decoded chunk's re-encoded length.
The counter makes the recursion structural; each iteration consumes at least
one byte of a valid encoding, so the initial byte count suffices (the source
loop would not terminate on invalid bytes, which never occur). -/
def chunkContentAux : Nat → List Nat → List PyStr
  | _, [] => []
  | 0, _ :: _ => []
  | fuel + 1, b :: rest =>
    let chunk := utf8DecodeIgnore ((b :: rest).take 4096)
    chunk :: chunkContentAux fuel ((b :: rest).drop (utf8Len chunk))

/-- `_chunk_content(text)` from `post_comments` in `src/review.py`. -/
def chunk_content (text : PyStr) : List PyStr :=
  chunkContentAux (encodeStr text).length (encodeStr text)

/-- The comment content assembled for one item in `post_comments`:
`"\n".join(lines)` where `lines` is `[issue, suggestion]` when the issue is
non-empty (truthy) and `[suggestion]` otherwise. -/
def commentContent (it : ReviewItem) : PyStr :=
  if it.issue = [] then it.suggestion else it.issue ++ '\n' :: it.suggestion

/-! ## `src/google_docs.py`: `chunk_paragraphs` -/

/-- The paragraph-accumulation loop of `chunk_paragraphs` in
`src/google_docs.py`.  `current` is the group of paragraphs accumulated so
far (Python appends to a list), `currentLen` its running size including one
newline separator per paragraph boundary already inside the group. -/
def chunkParasLoop (maxChars : Nat) : List PyStr → List PyStr → Nat → List PyStr
  | [], current, _ => if current = [] then [] else [joinNl current]
  | para :: rest, current, currentLen =>
    -- `para_len` from the source is inlined:
    -- `para.length + (if current = [] then 0 else 1)`.
    if currentLen + (para.length + (if current = [] then 0 else 1)) > maxChars ∧
        current ≠ [] then
      joinNl current :: chunkParasLoop maxChars rest [para] para.length
    else
      chunkParasLoop maxChars rest (current ++ [para])
        (currentLen + (para.length + (if current = [] then 0 else 1)))

/-- `chunk_paragraphs(paragraphs, max_chars)` from `src/google_docs.py`. -/
def chunk_paragraphs (paragraphs : List PyStr) (maxChars : Nat) : List PyStr :=
  chunkParasLoop maxChars paragraphs [] 0

/-! ## `src/review.py`: `process_changed_ranges` -/

/-- The cumulative offset list of `process_changed_ranges`
(`offsets = [0]` then `offsets.append(offsets[-1] + len(para) + 1)`). -/
def buildOffsets (acc : Nat) : List PyStr → List Nat
  | [] => [acc]
  | p :: rest => acc :: buildOffsets (acc + p.length + 1) rest

/-- The inner chunk loop of `process_changed_ranges`: one suggestion call per
chunk, producing one review item per chunk, advancing the absolute position
by the chunk length plus one separator except after the last chunk.  The
suggestion function may raise (`Except`), in which case the whole loop
propagates the failure, exactly as a Python exception would. -/
def chunksItems {ε : Type} (suggest : PyStr → PyStr → Except ε SuggestResp)
    (context : PyStr) : Nat → List PyStr → Except ε (List ReviewItem)
  | _, [] => .ok []
  | pos, chunk :: rest =>
    match suggest chunk context with
    | .error e => .error e
    | .ok resp =>
      match chunksItems suggest context
          (pos + chunk.length + (if rest = [] then 0 else 1)) rest with
      | .error e => .error e
      | .ok items =>
        .ok ({ issue := resp.issue, suggestion := resp.suggestion,
               severity := resp.severity, quote := chunk, start_index := pos,
               end_index := pos + chunk.length, hashVal := none } :: items)

/-- The outer loop of `process_changed_ranges` over the changed ranges.
Ranges are pairs of Python ints (`Int`): a pure-deletion range `(j, j-1)`
yields an empty slice and no items, as in the source.  `offsets[start]` is
modelled by `getD _ 0`; in the pipeline `start` is always in bounds. -/
def processRangesLoop {ε : Type} (paragraphs : List PyStr) (offsets : List Nat)
    (suggest : PyStr → PyStr → Except ε SuggestResp) (context : PyStr)
    (chunkChars : Nat) : List (Int × Int) → Except ε (List ReviewItem)
  | [] => .ok []
  | (s, e) :: rest =>
    match chunksItems suggest context (offsets.getD s.toNat 0)
        (chunk_paragraphs ((paragraphs.drop s.toNat).take (e + 1 - s).toNat)
          chunkChars) with
    | .error e => .error e
    | .ok items =>
      match processRangesLoop paragraphs offsets suggest context chunkChars rest with
      | .error e => .error e
      | .ok moreItems => .ok (items ++ moreItems)

/-- `process_changed_ranges(paragraphs, changed_ranges, suggest_fn, context,
chunk_chars)` from `src/review.py` (the source defaults `chunk_chars=800`). -/
def process_changed_ranges {ε : Type} (paragraphs : List PyStr)
    (changedRanges : List (Int × Int))
    (suggest : PyStr → PyStr → Except ε SuggestResp) (context : PyStr)
    (chunkChars : Nat) : Except ε (List ReviewItem) :=
  processRangesLoop paragraphs (buildOffsets 0 paragraphs) suggest context
    chunkChars changedRanges

/-- Specification helper: the character offset of paragraph `k` within the
newline-joined document (`sum of len(p) + 1 over the first k paragraphs`). -/
def offSum : List PyStr → Nat → Nat
  | _, 0 => 0
  | [], _ + 1 => 0
  | p :: rest, k + 1 => p.length + 1 + offSum rest k

/-! ## `src/groq_client.py`: `get_suggestions` -/

/-- A message in a Groq chat response (`{"content": ...}`). -/
structure GroqMsg where
  content : PyStr
deriving DecidableEq

/-- A choice in a Groq chat response (`{"message": {...}}`). -/
structure GroqChoice where
  message : GroqMsg
deriving DecidableEq

/-- A Groq chat response body (`{"choices": [...]}`). -/
structure GroqResp where
  choices : List GroqChoice
deriving DecidableEq

/-- `_chunks(txt, size)` from `get_suggestions` in `src/groq_client.py`:
`[txt[i : i + size] for i in range(0, len(txt), size)]`.
`List.range' 0 k size` is Python `range(0, len(txt), size)` with
`k = ⌈len/size⌉` elements.  `size = 0` raises `ValueError` in Python and is
unreachable (`GROQ_CHUNK_SIZE` is a positive configuration value); here it
yields `[]`. -/
def groqChunks (txt : PyStr) (size : Nat) : List PyStr :=
  (List.range' 0 ((txt.length + size - 1) / size) size).map
    (fun i => (txt.drop i).take size)

/-- The success path of `get_suggestions` from `src/groq_client.py`: texts no
longer than the chunk size go out as a single request; longer texts are split
with `_chunks`, one request per chunk, and the chunk responses' choice
contents are concatenated into a single combined response.  `post` is the
remote call (`_post`), `fmt` is `prompt_template.format`; the retry/backoff
machinery inside `_post` is not modelled — the claim concerns runs in which
every call succeeds on its first attempt.  The second component records the
prompts issued, one per remote call, in order. -/
def get_suggestions (post : PyStr → GroqResp) (fmt : PyStr → PyStr)
    (chunkSize : Nat) (text : PyStr) : GroqResp × List PyStr :=
  if text.length ≤ chunkSize then (post (fmt text), [fmt text])
  else
    let parts := groqChunks text chunkSize
    let responses := parts.map (fun p => post (fmt p))
    (⟨[⟨⟨(responses.flatMap (fun r =>
        r.choices.map (fun ch => ch.message.content))).flatten⟩⟩]⟩,
      parts.map fmt)

/-! ## `src/groq_client.py`: `RateLimiter` -/

/-- The constructor clamp of `RateLimiter.__init__`:
`self.max_calls = max(1, requests_per_minute)`. -/
def rateLimiterMaxCalls (requestsPerMinute : Int) : Nat :=
  (max 1 requestsPerMinute).toNat

/-- The `while self.calls and now - self.calls[0] >= 60: self.calls.popleft()`
pruning loop of `acquire`. -/
def pruneCalls (now : ℚ) : List ℚ → List ℚ
  | [] => []
  | t :: rest => if now - t ≥ 60 then pruneCalls now rest else t :: rest

/-- `RateLimiter.acquire` under simulated time.  Wall-clock time (`time.time()`
floats) is modelled with exact rationals; time advances only through
`time.sleep(wait)`.  One recursion step is one pass of the `while True:` loop:
prune timestamps older than 60 seconds from the front of the deque, admit the
call when the sliding window has room and the minimum spacing `60 / max_calls`
from the previous call is respected, otherwise sleep for
`max(window wait, spacing wait)` and loop.  The step counter bounds loop
passes (the source loop has no bound; every claim here needs only two
passes); the result is the final deque, the admission time, and the list of
positive sleeps performed, in order. -/
def acquireAux (maxCalls : Nat) : Nat → List ℚ → ℚ → Option (List ℚ × ℚ × List ℚ)
  | 0, _, _ => none
  | fuel + 1, calls0, now =>
    let calls := pruneCalls now calls0
    if calls.length < maxCalls ∧
        (calls = [] ∨ now - (calls.getLast?.getD 0) ≥ 60 / (maxCalls : ℚ)) then
      some (calls ++ [now], now, [])
    else
      let waitWindow : ℚ :=
        if maxCalls ≤ calls.length then (calls.head?.getD 0) + 60 - now else 0
      let waitSpacing : ℚ :=
        if calls ≠ [] then (calls.getLast?.getD 0) + 60 / (maxCalls : ℚ) - now else 0
      let wait := max waitWindow waitSpacing
      match acquireAux maxCalls fuel calls (if wait > 0 then now + wait else now) with
      | some (c, n, ws) => some (c, n, (if wait > 0 then [wait] else []) ++ ws)
      | none => none

/-! ## `difflib.SequenceMatcher`, as used by `detect_changed_ranges`

`detect_changed_ranges` constructs `SequenceMatcher(a=old, b=new)` — with the
default `isjunk=None`, so the junk set `bjunk` is always empty — and reads
`get_opcodes()`.  The embedding below follows CPython's `difflib` (the
behaviour `detect_changed_ranges` depends on): `__chain_b`'s position map with
autojunk, `find_longest_match`'s dynamic program and extension loops,
`get_matching_blocks`' explicit work stack, sort and collapse phases, and
`get_opcodes`' cursor sweep.  Sequence elements are generic with decidable
equality (the repository instantiates them with paragraph strings). -/

section SequenceMatcherDefs

variable {α : Type} [DecidableEq α]

/-- A matching block `Match(a=i, b=j, size)`. -/
structure DiffMatch where
  i : Nat
  j : Nat
  size : Nat
deriving DecidableEq

/-- All positions of `x` in `b`, ascending — the `b2j` entry built by
`__chain_b` before junk filtering. -/
def positionsOf (b : List α) (x : α) : List Nat :=
  (List.range b.length).filter (fun j => decide (b.get? j = some x))

/-- The `b2j` lookup after filtering.  `isjunk` is `None` here, so only
autojunk applies: when `len(b) >= 200`, elements occurring more than
`len(b) // 100 + 1` times are removed wholesale.  A missing key yields `[]`
(`b2j.get(a[i], nothing)`). -/
def b2j (b : List α) (x : α) : List Nat :=
  if 200 ≤ b.length ∧ b.length / 100 + 1 < (positionsOf b x).length then []
  else positionsOf b x

/-- The `b2j.get(a[i], nothing)` lookup for row `i` (`a[i]` is always in
bounds in the calls `get_matching_blocks` makes). -/
def rowPositions (a b : List α) (i : Nat) : List Nat :=
  match a.get? i with
  | some x => b2j b x
  | none => []

/-- `a[i] == b[j]` (both indices in bounds). -/
def elemEqB (a b : List α) (i j : Nat) : Bool :=
  match a.get? i, b.get? j with
  | some x, some y => decide (x = y)
  | _, _ => false

/-- The inner `for j in b2j.get(a[i], nothing)` loop of `find_longest_match`.
`prev` is the previous row's `j2len` dict, modelled as a total function
`Int → Nat` defaulting to `0` — keys are Python ints, so the
`j2len.get(j-1, 0)` lookup at `j = 0` reads the absent key `-1`, exactly as in
Python.  `best` is `(besti, bestj, bestsize)`; the Python update
`i-k+1, j-k+1, k` is written `i+1-k, j+1-k` which agrees with Python's
integer arithmetic because the dynamic program guarantees
`k ≤ min (i - alo + 1) (j - blo + 1)` (see `innerLoop_invariant`). -/
def innerLoop (blo bhi i : Nat) (prev : Int → Nat) :
    List Nat → (Int → Nat) → Nat × Nat × Nat → (Int → Nat) × (Nat × Nat × Nat)
  | [], new, best => (new, best)
  | j :: js, new, best =>
    if j < blo then innerLoop blo bhi i prev js new best
    else if bhi ≤ j then (new, best)
    else
      let k := prev ((j : Int) - 1) + 1
      let new' : Int → Nat := fun x => if x = (j : Int) then k else new x
      let best' := if best.2.2 < k then (i + 1 - k, j + 1 - k, k) else best
      innerLoop blo bhi i prev js new' best'

/-- The row loop (`for i in range(alo, ahi)`) of `find_longest_match`,
returning the best block of the dynamic-programming phase. -/
def phase1 (a b : List α) (alo ahi blo bhi : Nat) : Nat × Nat × Nat :=
  ((List.range' alo (ahi - alo)).foldl
    (fun st i => innerLoop blo bhi i st.1 (rowPositions a b i) (fun _ => 0) st.2)
    ((fun _ => 0), (alo, blo, 0))).2

/-- The first extension loop of `find_longest_match` (extend the best block
leftwards over equal elements).  With `isjunk=None` the junk set is empty, so
the `not isbjunk(...)` test always passes and the junk-extension loops that
follow in the source are no-ops. -/
def extendLeft (a b : List α) (alo blo : Nat) : Nat → Nat → Nat → Nat × Nat × Nat
  | i + 1, j + 1, size =>
    if alo ≤ i ∧ blo ≤ j ∧ elemEqB a b i j then extendLeft a b alo blo i j (size + 1)
    else (i + 1, j + 1, size)
  | i, j, size => (i, j, size)

/-- The second extension loop (extend rightwards).  The first argument counts
remaining loop passes: it starts at `ahi - besti - bestsize`, an upper bound
on the iterations of `while besti+bestsize < ahi and ...`, and each pass
consumes one; when it is `0` the `besti+bestsize < ahi` test fails anyway. -/
def extendRight (a b : List α) (ahi bhi i j : Nat) : Nat → Nat → Nat
  | 0, size => size
  | rem + 1, size =>
    if i + size < ahi ∧ j + size < bhi ∧ elemEqB a b (i + size) (j + size) then
      extendRight a b ahi bhi i j rem (size + 1)
    else size

/-- `find_longest_match(alo, ahi, blo, bhi)` with `isjunk=None`. -/
def find_longest_match (a b : List α) (alo ahi blo bhi : Nat) : DiffMatch :=
  let best := phase1 a b alo ahi blo bhi
  let left := extendLeft a b alo blo best.1 best.2.1 best.2.2
  let size := extendRight a b ahi bhi left.1 left.2.1 (ahi - left.1 - left.2.2) left.2.2
  ⟨left.1, left.2.1, size⟩

/-- The `while queue:` loop of `get_matching_blocks`.  The stack head is
Python's `queue.pop()` (the right end); pushing the left region then the
right region makes the right region the new head, as in the source.  The
first argument counts loop passes: each pass pops one region and pushes
sub-regions whose total size is smaller, so `len(a) + len(b) + 1` passes
always suffice (see `get_matching_blocks`); all invariants proved about the
collected blocks hold for every pass count. -/
def gmbLoop (a b : List α) : Nat → List (Nat × Nat × Nat × Nat) → List DiffMatch →
    List DiffMatch
  | 0, _, acc => acc
  | _ + 1, [], acc => acc
  | fuel + 1, (alo, ahi, blo, bhi) :: queue, acc =>
    let m := find_longest_match a b alo ahi blo bhi
    if m.size = 0 then gmbLoop a b fuel queue acc
    else
      gmbLoop a b fuel
        ((if m.i + m.size < ahi ∧ m.j + m.size < bhi then
            [(m.i + m.size, ahi, m.j + m.size, bhi)] else []) ++
          (if alo < m.i ∧ blo < m.j then [(alo, m.i, blo, m.j)] else []) ++ queue)
        (m :: acc)

/-- The sort order of `matching_blocks.sort()`: lexicographic on
`(i, j, size)`.  The collected blocks are pairwise disjoint, hence distinct,
so any (stable) sorting algorithm produces Python's sorted list; insertion
sort is used here. -/
def matchLe (m1 m2 : DiffMatch) : Prop :=
  m1.i < m2.i ∨ (m1.i = m2.i ∧ (m1.j < m2.j ∨ (m1.j = m2.j ∧ m1.size ≤ m2.size)))

instance matchLe.decRel : DecidableRel matchLe := fun m1 m2 => by
  unfold matchLe
  infer_instance

instance matchLe.total : IsTotal DiffMatch matchLe :=
  ⟨by intro m1 m2; unfold matchLe; omega⟩

instance matchLe.trans : IsTrans DiffMatch matchLe :=
  ⟨by intro m1 m2 m3; unfold matchLe; omega⟩

/-- The adjacent-block collapse loop of `get_matching_blocks`
(`i1 = j1 = k1 = 0` accumulator, merging blocks with `i1+k1 == i2 and
j1+k1 == j2`). -/
def collapseBlocks : List DiffMatch → Nat → Nat → Nat → List DiffMatch
  | [], i1, j1, k1 => if k1 ≠ 0 then [⟨i1, j1, k1⟩] else []
  | m :: rest, i1, j1, k1 =>
    if i1 + k1 = m.i ∧ j1 + k1 = m.j then collapseBlocks rest i1 j1 (k1 + m.size)
    else (if k1 ≠ 0 then [⟨i1, j1, k1⟩] else []) ++ collapseBlocks rest m.i m.j m.size

/-- `get_matching_blocks()`: run the queue loop, sort, collapse adjacent
blocks, and append the `(len(a), len(b), 0)` sentinel. -/
def get_matching_blocks (a b : List α) : List DiffMatch :=
  let collected := gmbLoop a b (a.length + b.length + 1) [(0, a.length, 0, b.length)] []
  collapseBlocks (collected.insertionSort matchLe) 0 0 0 ++ [⟨a.length, b.length, 0⟩]

/-- An opcode tag of `get_opcodes()`. -/
inductive DiffTag where
  | replace
  | delete
  | insert
  | equal
deriving DecidableEq

/-- An opcode `(tag, i1, i2, j1, j2)` of `get_opcodes()`. -/
structure Opcode where
  tag : DiffTag
  a1 : Nat
  a2 : Nat
  b1 : Nat
  b2 : Nat
deriving DecidableEq

/-- The cursor sweep of `get_opcodes()` over the matching blocks. -/
def opcodesLoop : List DiffMatch → Nat → Nat → List Opcode
  | [], _, _ => []
  | m :: rest, i, j =>
    (if i < m.i ∧ j < m.j then [⟨.replace, i, m.i, j, m.j⟩]
     else if i < m.i then [⟨.delete, i, m.i, j, m.j⟩]
     else if j < m.j then [⟨.insert, i, m.i, j, m.j⟩]
     else []) ++
    (if m.size ≠ 0 then [⟨.equal, m.i, m.i + m.size, m.j, m.j + m.size⟩] else []) ++
    opcodesLoop rest (m.i + m.size) (m.j + m.size)

/-- `get_opcodes()`. -/
def get_opcodes (a b : List α) : List Opcode :=
  opcodesLoop (get_matching_blocks a b) 0 0

/-- `detect_changed_ranges(old_paragraphs, new_paragraphs)` from
`src/review.py`: one `(j1, j2 - 1)` pair (Python ints, so `Int × Int`) per
non-`"equal"` opcode. -/
def detect_changed_ranges (old new : List α) : List (Int × Int) :=
  ((get_opcodes old new).filter (fun op => decide (op.tag ≠ .equal))).map
    (fun op => ((op.b1 : Int), (op.b2 : Int) - 1))

end SequenceMatcherDefs

/-! ### Specification predicates for the matcher proofs -/

/-- Invariant of the `j2len` dictionary after `r` rows: every stored chain
length is at most `r`, and a non-zero chain of length `v` at column `x` spans
columns `[x - v + 1, x] ⊆ [blo, bhi)`. -/
def ValidJ2 (blo bhi r : Nat) (f : Int → Nat) : Prop :=
  ∀ x : Int, f x ≤ r ∧ (f x ≠ 0 → (blo : Int) ≤ x - (f x : Int) + 1 ∧ x < (bhi : Int))

/-- The best block `(besti, bestj, bestsize)` lies inside the region. -/
def BestBounds (alo ahi blo bhi : Nat) (best : Nat × Nat × Nat) : Prop :=
  alo ≤ best.1 ∧ best.1 + best.2.2 ≤ ahi ∧ blo ≤ best.2.1 ∧ best.2.1 + best.2.2 ≤ bhi

/-- `m1` ends (in both coordinates) before `m2` starts. -/
def matchBefore (m1 m2 : DiffMatch) : Prop :=
  m1.i + m1.size ≤ m2.i ∧ m1.j + m1.size ≤ m2.j

/-- Two blocks are separated (one wholly before the other). -/
def sepMM (m1 m2 : DiffMatch) : Prop := matchBefore m1 m2 ∨ matchBefore m2 m1

/-- A work-stack region `(alo, ahi, blo, bhi)` is well-formed within the
sequences. -/
def regionWF (la lb : Nat) (r : Nat × Nat × Nat × Nat) : Prop :=
  r.1 ≤ r.2.1 ∧ r.2.1 ≤ la ∧ r.2.2.1 ≤ r.2.2.2 ∧ r.2.2.2 ≤ lb

/-- Two regions are separated. -/
def sepRR (r1 r2 : Nat × Nat × Nat × Nat) : Prop :=
  (r1.2.1 ≤ r2.1 ∧ r1.2.2.2 ≤ r2.2.2.1) ∨ (r2.2.1 ≤ r1.1 ∧ r2.2.2.2 ≤ r1.2.2.1)

/-- A region and a block are separated. -/
def sepRM (r : Nat × Nat × Nat × Nat) (m : DiffMatch) : Prop :=
  (r.2.1 ≤ m.i ∧ r.2.2.2 ≤ m.j) ∨ (m.i + m.size ≤ r.1 ∧ m.j + m.size ≤ r.2.2.1)

/-- A collected block: non-empty and inside the sequences. -/
def matchWF (la lb : Nat) (m : DiffMatch) : Prop :=
  1 ≤ m.size ∧ m.i + m.size ≤ la ∧ m.j + m.size ≤ lb

/-- The block lies inside the region. -/
def matchInRegion (r : Nat × Nat × Nat × Nat) (m : DiffMatch) : Prop :=
  r.1 ≤ m.i ∧ m.i + m.size ≤ r.2.1 ∧ r.2.2.1 ≤ m.j ∧ m.j + m.size ≤ r.2.2.2

/-- `r'` is a sub-region of `r`. -/
def subRegion (r' r : Nat × Nat × Nat × Nat) : Prop :=
  r.1 ≤ r'.1 ∧ r'.2.1 ≤ r.2.1 ∧ r.2.2.1 ≤ r'.2.2.1 ∧ r'.2.2.2 ≤ r.2.2.2

/-- The length of the diagonal chain of the dynamic program when comparing a
list with itself: `dAt l i` is the value the `j2len` entry at the diagonal
column `i - 1` holds after row `i - 1`, growing by one per row whose `b2j`
entry is non-empty and resetting when a row's entry is empty (autojunk). -/
def dAt {α : Type} [DecidableEq α] (l : List α) : Nat → Nat
  | 0 => 0
  | i + 1 => if rowPositions l l i = [] then 0 else dAt l i + 1

/-! ## `src/review.py`: `review_document` -/

/-- Python `dict.get(key)` over the `appProperties` dict, modelled as an
association list (insertion order preserved, as in Python dicts). -/
def mapGet (props : List (PyStr × PyStr)) (key : PyStr) : Option PyStr :=
  (props.find? (fun kv => decide (kv.1 = key))).map (fun kv => kv.2)

/-- Python `d[key] = value`: overwrite in place when the key exists, append
otherwise. -/
def mapSet (props : List (PyStr × PyStr)) (key val : PyStr) : List (PyStr × PyStr) :=
  if (props.find? (fun kv => decide (kv.1 = key))).isSome then
    props.map (fun kv => if kv.1 = key then (key, val) else kv)
  else props ++ [(key, val)]

/-- Python `str.splitlines()` on `\n`-separated text (revision plain text):
the accumulator holds the current line in reverse; a trailing newline does not
produce a final empty line. -/
def splitlinesAux : PyStr → PyStr → List PyStr
  | [], cur => if cur = [] then [] else [cur.reverse]
  | c :: rest, cur =>
    if c = '\n' then cur.reverse :: splitlinesAux rest []
    else splitlinesAux rest (c :: cur)

/-- Python `str.splitlines()` (the revision text uses `\n` separators). -/
def splitlines (s : PyStr) : List PyStr := splitlinesAux s []

/-- `SUGGESTION_HASHES_KEY = "suggestionHashes"` from `src/review.py`. -/
def suggestionHashesKey : PyStr := "suggestionHashes".toList

/-- The `"lastReviewedRevisionId"` key used by `get_last_reviewed_revision`
and `update_last_reviewed_revision`. -/
def lastReviewedRevisionKey : PyStr := "lastReviewedRevisionId".toList

/-- `MAX_APP_PROPERTY_BYTES = 124` from `src/review.py`. -/
def maxAppPropertyBytes : Nat := 124

/-- The external services `review_document` calls, in call order: Drive
`get_app_properties` (returning the `appProperties` dict and the head
revision id), `get_share_message`, Docs `get_document_paragraphs`, and
`download_revision_text`.  Each call may raise (`Except ε`). -/
structure ReviewEnv (ε : Type) where
  getAppProperties : Except ε (List (PyStr × PyStr) × PyStr)
  getShareMessage : Except ε PyStr
  getDocumentParagraphs : Except ε (List PyStr)
  downloadRevisionText : PyStr → Except ε PyStr

/-- The `old_paragraphs` computation of `review_document`: download the last
reviewed revision and split it into lines when a (truthy) revision pointer is
stored, else the empty list. -/
def loadOldParagraphs {ε : Type} (env : ReviewEnv ε)
    (props : List (PyStr × PyStr)) : Except ε (List PyStr) :=
  match mapGet props lastReviewedRevisionKey with
  | some lastRevision =>
    if lastRevision = [] then .ok []
    else
      match env.downloadRevisionText lastRevision with
      | .error e => .error e
      | .ok oldText => .ok (splitlines oldText)
  | none => .ok []

/-- `review_document(drive_service, docs_service, document_id, suggest_fn)`
from `src/review.py`.  The returned pair is the function's result (or the
propagated exception) together with the trace of `update_app_properties`
calls (each carrying the dict written).  The truthiness test
`if last_revision:` treats both a missing key and an empty string as absent,
as does `if app_properties.get(SUGGESTION_HASHES_KEY):` for the ledger. -/
def review_document {ε : Type} (env : ReviewEnv ε)
    (suggest : PyStr → PyStr → Except ε SuggestResp)
    (hashFn : PyStr → PyStr → PyStr) :
    Except ε (List ReviewItem) × List (List (PyStr × PyStr)) :=
  match env.getAppProperties with
  | .error e => (.error e, [])
  | .ok (appProperties, headRevision) =>
    match env.getShareMessage with
    | .error e => (.error e, [])
    | .ok context =>
      match env.getDocumentParagraphs with
      | .error e => (.error e, [])
      | .ok currentParagraphs =>
        match loadOldParagraphs env appProperties with
        | .error e => (.error e, [])
        | .ok oldParagraphs =>
          match process_changed_ranges currentParagraphs
              (detect_changed_ranges oldParagraphs currentParagraphs)
              suggest context 800 with
          | .error e => (.error e, [])
          | .ok items =>
            let stored := (mapGet appProperties suggestionHashesKey).getD []
            let existingList := if stored = [] then [] else splitComma stored
            let r := deduplicate_suggestions hashFn items existingList.toFinset
            let newList :=
              existingList ++ r.1.map (fun it => it.hashVal.getD [])
            let pruned := prune_hashes newList
              (maxAppPropertyBytes - suggestionHashesKey.length)
            let props2 := mapSet (mapSet appProperties suggestionHashesKey pruned)
              lastReviewedRevisionKey headRevision
            (.ok r.1, [props2])

/-! ## Lemmas about the UTF-8 codec -/

lemma utf8EncodeChar_length_pos (c : Char) : 0 < (utf8EncodeChar c).length := by
  unfold utf8EncodeChar
  split <;> simp_all <;> split <;> simp_all <;> split <;> simp_all

lemma utf8EncodeChar_length_le (c : Char) : (utf8EncodeChar c).length ≤ 4 := by
  unfold utf8EncodeChar
  split <;> simp_all <;> split <;> simp_all <;> split <;> simp_all

lemma encodeStr_cons (c : Char) (s : PyStr) :
    encodeStr (c :: s) = utf8EncodeChar c ++ encodeStr s := by
  simp [encodeStr]

lemma utf8Len_cons (c : Char) (s : PyStr) :
    utf8Len (c :: s) = (utf8EncodeChar c).length + utf8Len s := by
  simp [utf8Len, encodeStr_cons]

lemma encodeStr_append (s t : PyStr) :
    encodeStr (s ++ t) = encodeStr s ++ encodeStr t := by
  simp [encodeStr]

lemma encodeStr_eq_nil_iff (s : PyStr) : encodeStr s = [] ↔ s = [] := by
  cases s with
  | nil => simp [encodeStr]
  | cons c rest =>
    simp only [encodeStr_cons]
    constructor
    · intro h
      have := utf8EncodeChar_length_pos c
      have : utf8EncodeChar c = [] := by
        rcases List.append_eq_nil.mp h with ⟨h1, _⟩
        exact h1
      simp_all
    · intro h
      exact absurd h (by simp)

lemma utf8DecodeIgnoreAux_encodeChar (fuel : Nat) (c : Char) (bs : List Nat) :
    utf8DecodeIgnoreAux (fuel + 1) (utf8EncodeChar c ++ bs) =
      c :: utf8DecodeIgnoreAux fuel bs := by
  have hofNat := Char.ofNat_toNat c
  by_cases h1 : c.toNat < 0x80
  · simp only [utf8EncodeChar, if_pos h1, List.cons_append, List.nil_append]
    simp [utf8DecodeIgnoreAux, h1, hofNat]
  · by_cases h2 : c.toNat < 0x800
    · simp only [utf8EncodeChar, if_neg h1, if_pos h2, List.cons_append, List.nil_append]
      have hb1 : ¬ (0xC0 + c.toNat / 64 < 0x80) := by omega
      have hb2 : ¬ (0xC0 + c.toNat / 64 < 0xC0) := by omega
      have hb3 : 0xC0 + c.toNat / 64 < 0xE0 := by omega
      have hc1 : isCont (0x80 + c.toNat % 64) = true := by
        simp only [isCont, Bool.and_eq_true, decide_eq_true_eq]; omega
      have harith : c.toNat / 64 * 64 + c.toNat % 64 = c.toNat := by omega
      simp [utf8DecodeIgnoreAux, hb1, hb2, hb3, hc1, harith, hofNat]
    · by_cases h3 : c.toNat < 0x10000
      · simp only [utf8EncodeChar, if_neg h1, if_neg h2, if_pos h3, List.cons_append,
          List.nil_append]
        have hb1 : ¬ (0xE0 + c.toNat / 4096 < 0x80) := by omega
        have hb2 : ¬ (0xE0 + c.toNat / 4096 < 0xC0) := by omega
        have hb3 : ¬ (0xE0 + c.toNat / 4096 < 0xE0) := by omega
        have hb4 : 0xE0 + c.toNat / 4096 < 0xF0 := by omega
        have hc1 : isCont (0x80 + c.toNat / 64 % 64) = true := by
          simp only [isCont, Bool.and_eq_true, decide_eq_true_eq]; omega
        have hc2 : isCont (0x80 + c.toNat % 64) = true := by
          simp only [isCont, Bool.and_eq_true, decide_eq_true_eq]; omega
        have harith : c.toNat / 4096 * 4096 + c.toNat / 64 % 64 * 64 + c.toNat % 64 =
            c.toNat := by omega
        simp [utf8DecodeIgnoreAux, hb1, hb2, hb3, hb4, hc1, hc2, harith, hofNat]
      · simp only [utf8EncodeChar, if_neg h1, if_neg h2, if_neg h3, List.cons_append,
          List.nil_append]
        have hb1 : ¬ (0xF0 + c.toNat / 262144 < 0x80) := by omega
        have hb2 : ¬ (0xF0 + c.toNat / 262144 < 0xC0) := by omega
        have hb3 : ¬ (0xF0 + c.toNat / 262144 < 0xE0) := by omega
        have hb4 : ¬ (0xF0 + c.toNat / 262144 < 0xF0) := by omega
        have hc1 : isCont (0x80 + c.toNat / 4096 % 64) = true := by
          simp only [isCont, Bool.and_eq_true, decide_eq_true_eq]; omega
        have hc2 : isCont (0x80 + c.toNat / 64 % 64) = true := by
          simp only [isCont, Bool.and_eq_true, decide_eq_true_eq]; omega
        have hc3 : isCont (0x80 + c.toNat % 64) = true := by
          simp only [isCont, Bool.and_eq_true, decide_eq_true_eq]; omega
        have harith : c.toNat / 262144 * 262144 + c.toNat / 4096 % 64 * 4096 +
            c.toNat / 64 % 64 * 64 + c.toNat % 64 = c.toNat := by omega
        simp [utf8DecodeIgnoreAux, hb1, hb2, hb3, hb4, hc1, hc2, hc3, harith, hofNat]

lemma utf8DecodeIgnoreAux_truncated (fuel : Nat) (c : Char) (k : Nat)
    (hk : k < (utf8EncodeChar c).length) :
    utf8DecodeIgnoreAux fuel ((utf8EncodeChar c).take k) = [] := by
  rcases Nat.eq_zero_or_pos k with rfl | hkpos
  · cases fuel <;> simp [utf8DecodeIgnoreAux]
  cases fuel with
  | zero => cases (utf8EncodeChar c).take k <;> rfl
  | succ fuel =>
    by_cases h1 : c.toNat < 0x80
    · have : (utf8EncodeChar c).length = 1 := by simp [utf8EncodeChar, h1]
      omega
    · by_cases h2 : c.toNat < 0x800
      · have hlen : (utf8EncodeChar c).length = 2 := by simp [utf8EncodeChar, h1, h2]
        have hk1 : k = 1 := by omega
        subst hk1
        simp only [utf8EncodeChar, if_neg h1, if_pos h2, List.take_succ_cons,
          List.take_zero]
        have hb1 : ¬ (0xC0 + c.toNat / 64 < 0x80) := by omega
        have hb2 : ¬ (0xC0 + c.toNat / 64 < 0xC0) := by omega
        have hb3 : 0xC0 + c.toNat / 64 < 0xE0 := by omega
        simp [utf8DecodeIgnoreAux, hb1, hb2, hb3]
      · by_cases h3 : c.toNat < 0x10000
        · have hlen : (utf8EncodeChar c).length = 3 := by
            simp [utf8EncodeChar, h1, h2, h3]
          have hb1 : ¬ (0xE0 + c.toNat / 4096 < 0x80) := by omega
          have hb2 : ¬ (0xE0 + c.toNat / 4096 < 0xC0) := by omega
          have hb3 : ¬ (0xE0 + c.toNat / 4096 < 0xE0) := by omega
          have hb4 : 0xE0 + c.toNat / 4096 < 0xF0 := by omega
          have hc1 : isCont (0x80 + c.toNat / 64 % 64) = true := by
            simp only [isCont, Bool.and_eq_true, decide_eq_true_eq]; omega
          rw [hlen] at hk
          interval_cases k
          · simp only [utf8EncodeChar, if_neg h1, if_neg h2, if_pos h3,
              List.take_succ_cons, List.take_zero]
            simp [utf8DecodeIgnoreAux, hb1, hb2, hb3, hb4]
          · simp only [utf8EncodeChar, if_neg h1, if_neg h2, if_pos h3,
              List.take_succ_cons, List.take_zero]
            simp [utf8DecodeIgnoreAux, hb1, hb2, hb3, hb4, hc1]
        · have hlen : (utf8EncodeChar c).length = 4 := by
            simp [utf8EncodeChar, h1, h2, h3]
          have hb1 : ¬ (0xF0 + c.toNat / 262144 < 0x80) := by omega
          have hb2 : ¬ (0xF0 + c.toNat / 262144 < 0xC0) := by omega
          have hb3 : ¬ (0xF0 + c.toNat / 262144 < 0xE0) := by omega
          have hb4 : ¬ (0xF0 + c.toNat / 262144 < 0xF0) := by omega
          have hc1 : isCont (0x80 + c.toNat / 4096 % 64) = true := by
            simp only [isCont, Bool.and_eq_true, decide_eq_true_eq]; omega
          have hc2 : isCont (0x80 + c.toNat / 64 % 64) = true := by
            simp only [isCont, Bool.and_eq_true, decide_eq_true_eq]; omega
          rw [hlen] at hk
          interval_cases k
          · simp only [utf8EncodeChar, if_neg h1, if_neg h2, if_neg h3,
              List.take_succ_cons, List.take_zero]
            simp [utf8DecodeIgnoreAux, hb1, hb2, hb3, hb4]
          · simp only [utf8EncodeChar, if_neg h1, if_neg h2, if_neg h3,
              List.take_succ_cons, List.take_zero]
            simp [utf8DecodeIgnoreAux, hb1, hb2, hb3, hb4, hc1]
          · simp only [utf8EncodeChar, if_neg h1, if_neg h2, if_neg h3,
              List.take_succ_cons, List.take_zero]
            simp [utf8DecodeIgnoreAux, hb1, hb2, hb3, hb4, hc1, hc2]

lemma utf8DecodeIgnoreAux_nil (fuel : Nat) : utf8DecodeIgnoreAux fuel [] = [] := by
  cases fuel <;> rfl

lemma utf8Len_greedyTake_le (cs : PyStr) : ∀ k, utf8Len (greedyTake k cs) ≤ k := by
  induction cs with
  | nil => intro k; simp [greedyTake, utf8Len, encodeStr]
  | cons c rest ih =>
    intro k
    by_cases h : (utf8EncodeChar c).length ≤ k
    · have := ih (k - (utf8EncodeChar c).length)
      simp only [greedyTake, if_pos h, utf8Len_cons]
      omega
    · simp [greedyTake, h, utf8Len, encodeStr]

lemma greedyTake_prefix (cs : PyStr) : ∀ k, greedyTake k cs <+: cs := by
  induction cs with
  | nil => intro k; simp [greedyTake]
  | cons c rest ih =>
    intro k
    by_cases h : (utf8EncodeChar c).length ≤ k
    · simpa [greedyTake, h] using ih (k - (utf8EncodeChar c).length)
    · simp [greedyTake, h]

lemma greedyTake_ne_nil (c : Char) (rest : PyStr) (k : Nat) (hk : 4 ≤ k) :
    greedyTake k (c :: rest) ≠ [] := by
  have := utf8EncodeChar_length_le c
  simp [greedyTake, show (utf8EncodeChar c).length ≤ k by omega]

lemma utf8Len_pos_of_ne_nil (s : PyStr) (h : s ≠ []) : 0 < utf8Len s := by
  cases s with
  | nil => exact absurd rfl h
  | cons c rest =>
    have := utf8EncodeChar_length_pos c
    rw [utf8Len_cons]
    omega

lemma utf8DecodeIgnoreAux_take_encode (cs : PyStr) : ∀ (k fuel : Nat),
    ((encodeStr cs).take k).length ≤ fuel →
    utf8DecodeIgnoreAux fuel ((encodeStr cs).take k) = greedyTake k cs := by
  induction cs with
  | nil =>
    intro k fuel _
    simp [encodeStr, greedyTake, utf8DecodeIgnoreAux_nil]
  | cons c rest ih =>
    intro k fuel hfuel
    rw [encodeStr_cons] at hfuel ⊢
    by_cases hsz : (utf8EncodeChar c).length ≤ k
    · have htake : (utf8EncodeChar c ++ encodeStr rest).take k =
          utf8EncodeChar c ++ (encodeStr rest).take (k - (utf8EncodeChar c).length) := by
        conv_lhs => rw [show k = (utf8EncodeChar c).length +
          (k - (utf8EncodeChar c).length) by omega]
        rw [List.take_append]
      rw [htake] at hfuel ⊢
      have hpos := utf8EncodeChar_length_pos c
      have hlen : (utf8EncodeChar c).length +
          ((encodeStr rest).take (k - (utf8EncodeChar c).length)).length ≤ fuel := by
        simpa using hfuel
      obtain ⟨f, rfl⟩ : ∃ f, fuel = f + 1 := ⟨fuel - 1, by omega⟩
      rw [utf8DecodeIgnoreAux_encodeChar, ih (k - (utf8EncodeChar c).length) f (by omega)]
      simp [greedyTake, hsz]
    · have hk : k ≤ (utf8EncodeChar c).length := by omega
      rw [List.take_append_of_le_length hk,
        utf8DecodeIgnoreAux_truncated fuel c k (by omega)]
      simp [greedyTake, hsz]

lemma chunkContentAux_cons_of_ne_nil (f : Nat) (bs : List Nat) (h : bs ≠ []) :
    chunkContentAux (f + 1) bs =
      utf8DecodeIgnore (bs.take 4096) ::
        chunkContentAux f (bs.drop (utf8Len (utf8DecodeIgnore (bs.take 4096)))) := by
  cases bs with
  | nil => exact absurd rfl h
  | cons b rest => rfl

lemma chunkContentAux_spec : ∀ (fuel : Nat) (cs : PyStr), (encodeStr cs).length ≤ fuel →
    (∀ part ∈ chunkContentAux fuel (encodeStr cs), utf8Len part ≤ 4096) ∧
    (chunkContentAux fuel (encodeStr cs)).flatten = cs := by
  intro fuel
  induction fuel with
  | zero =>
    intro cs hcs
    have : encodeStr cs = [] := List.eq_nil_of_length_eq_zero (by omega)
    have hcsnil : cs = [] := (encodeStr_eq_nil_iff cs).mp this
    subst hcsnil
    simp [encodeStr, chunkContentAux]
  | succ f ih =>
    intro cs hcs
    cases cs with
    | nil => simp [encodeStr, chunkContentAux]
    | cons c rest =>
      have hne : encodeStr (c :: rest) ≠ [] := by
        simp [encodeStr_eq_nil_iff]
      rw [chunkContentAux_cons_of_ne_nil f _ hne]
      have hchunk : utf8DecodeIgnore ((encodeStr (c :: rest)).take 4096) =
          greedyTake 4096 (c :: rest) :=
        utf8DecodeIgnoreAux_take_encode (c :: rest) 4096 _ le_rfl
      rw [hchunk]
      set g := greedyTake 4096 (c :: rest) with hg
      have hgle : utf8Len g ≤ 4096 := utf8Len_greedyTake_le (c :: rest) 4096
      have hgne : g ≠ [] := greedyTake_ne_nil c rest 4096 (by norm_num)
      have hgpos : 0 < utf8Len g := utf8Len_pos_of_ne_nil g hgne
      obtain ⟨tail, htail⟩ := greedyTake_prefix (c :: rest) 4096
      have hdrop : (encodeStr (c :: rest)).drop (utf8Len g) = encodeStr tail := by
        rw [← htail, encodeStr_append]
        simpa [utf8Len] using List.drop_left (encodeStr g) (encodeStr tail)
      rw [hdrop]
      have hlen : (encodeStr tail).length ≤ f := by
        have : (encodeStr (c :: rest)).length =
            utf8Len g + (encodeStr tail).length := by
          rw [← htail, encodeStr_append]
          simp [utf8Len]
        omega
      obtain ⟨ihparts, ihflat⟩ := ih tail hlen
      refine ⟨?_, ?_⟩
      · intro part hpart
        rcases List.mem_cons.mp hpart with rfl | hmem
        · exact hgle
        · exact ihparts part hmem
      · simpa [ihflat] using htail

/-- **C5.** Every part produced by the `_chunk_content` splitter in
`post_comments` has a UTF-8 encoding of at most 4096 bytes, and no part's
boundary splits a character: the parts are exact consecutive character
subsequences whose concatenation is the input string (each part possibly
ending short of 4096 bytes). -/
theorem chunk_content_parts_bounded (text : PyStr) :
    (∀ part ∈ chunk_content text, utf8Len part ≤ 4096) ∧
    (chunk_content text).flatten = text :=
  chunkContentAux_spec (encodeStr text).length text le_rfl

/-- Witness for `chunk_content_parts_bounded` at a concrete input. -/
theorem chunk_content_parts_bounded_witness :
    ['h', 'i'] ∈ chunk_content ['h', 'i'] ∧ utf8Len ['h', 'i'] ≤ 4096 :=
  ⟨by decide, (chunk_content_parts_bounded ['h', 'i']).1 ['h', 'i'] (by decide)⟩

/-! ## Lemmas about `_prune_hashes` -/

lemma pruneWhile_spec (maxBytes : Nat) (hs : List PyStr) :
    ∃ k, k ≤ hs.length ∧ pruneWhile maxBytes hs = joinComma (hs.drop k) ∧
      utf8Len (joinComma (hs.drop k)) ≤ maxBytes ∧
      ∀ k' < k, ¬ utf8Len (joinComma (hs.drop k')) ≤ maxBytes := by
  induction hs with
  | nil =>
    refine ⟨0, by simp, ?_, ?_, by omega⟩
    · simp [pruneWhile, joinComma, joinSep]
    · simp [joinComma, joinSep, utf8Len, encodeStr]
  | cons h t ih =>
    by_cases hfit : utf8Len (joinComma (h :: t)) > maxBytes
    · obtain ⟨k, hk, heq, hle, hmin⟩ := ih
      refine ⟨k + 1, by simpa using Nat.succ_le_succ hk, ?_, by simpa using hle, ?_⟩
      · simpa [pruneWhile, hfit] using heq
      · intro k' hk'
        match k' with
        | 0 => simpa using hfit
        | j + 1 =>
          have : j < k := by omega
          simpa using hmin j this
    · refine ⟨0, by simp, ?_, ?_, by omega⟩
      · simp [pruneWhile, hfit]
      · simpa using Nat.le_of_not_lt hfit

/-- **C3.** `_prune_hashes(hashes, max_bytes)` returns the comma-joined
encoding of the longest suffix of `hashes` whose UTF-8 encoding fits within
`max_bytes` (the whole sequence when it already fits, i.e. the eviction count
`k` is minimal and eviction is always from the front), and the returned
string's UTF-8 length never exceeds `max_bytes`. -/
theorem prune_hashes_longest_fitting_suffix (hashes : List PyStr) (maxBytes : Nat) :
    utf8Len (prune_hashes hashes maxBytes) ≤ maxBytes ∧
    ∃ k, k ≤ hashes.length ∧
      prune_hashes hashes maxBytes = joinComma (hashes.drop k) ∧
      ∀ k' < k, ¬ utf8Len (joinComma (hashes.drop k')) ≤ maxBytes := by
  by_cases hfit : utf8Len (joinComma hashes) ≤ maxBytes
  · refine ⟨by simpa [prune_hashes, hfit] using hfit, 0, by simp, ?_, by omega⟩
    simp [prune_hashes, hfit]
  · obtain ⟨k, hk, heq, hle, hmin⟩ := pruneWhile_spec maxBytes hashes
    have hpr : prune_hashes hashes maxBytes = pruneWhile maxBytes hashes := by
      simp [prune_hashes, hfit]
    exact ⟨by rw [hpr, heq]; exact hle, k, hk, by rw [hpr, heq], hmin⟩

/-! ## Lemmas about `deduplicate_suggestions` -/

lemma dedup_set_monotone (hashFn : PyStr → PyStr → PyStr) (items : List ReviewItem)
    (s : Finset PyStr) : s ⊆ (deduplicate_suggestions hashFn items s).2 := by
  induction items generalizing s with
  | nil => simp [deduplicate_suggestions]
  | cons item rest ih =>
    by_cases h1 : item.suggestion = []
    · simpa [deduplicate_suggestions, h1] using ih s
    · by_cases h2 : hashFn item.suggestion item.quote ∈ s
      · simpa [deduplicate_suggestions, h1, h2] using ih s
      · have := ih (insert (hashFn item.suggestion item.quote) s)
        simp only [deduplicate_suggestions, h1, if_neg h1, h2, if_neg h2, if_false]
        exact fun x hx => this (Finset.mem_insert_of_mem hx)

lemma dedup_hash_mem (hashFn : PyStr → PyStr → PyStr) (items : List ReviewItem)
    (s : Finset PyStr) :
    ∀ it ∈ items, it.suggestion ≠ [] →
      hashFn it.suggestion it.quote ∈ (deduplicate_suggestions hashFn items s).2 := by
  induction items generalizing s with
  | nil => simp
  | cons item rest ih =>
    intro it hit hne
    by_cases h1 : item.suggestion = []
    · rcases List.mem_cons.mp hit with rfl | hmem
      · exact absurd h1 hne
      · simpa [deduplicate_suggestions, h1] using ih s it hmem hne
    · by_cases h2 : hashFn item.suggestion item.quote ∈ s
      · rcases List.mem_cons.mp hit with rfl | hmem
        · simpa [deduplicate_suggestions, h1, h2] using
            dedup_set_monotone hashFn rest s h2
        · simpa [deduplicate_suggestions, h1, h2] using ih s it hmem hne
      · rcases List.mem_cons.mp hit with rfl | hmem
        · simp only [deduplicate_suggestions, if_neg h1, if_neg h2]
          exact dedup_set_monotone hashFn rest _ (Finset.mem_insert_self _ _)
        · simp only [deduplicate_suggestions, if_neg h1, if_neg h2]
          exact ih _ it hmem hne

lemma dedup_empty_of_all_mem (hashFn : PyStr → PyStr → PyStr) (items : List ReviewItem)
    (s : Finset PyStr)
    (h : ∀ it ∈ items, it.suggestion ≠ [] → hashFn it.suggestion it.quote ∈ s) :
    (deduplicate_suggestions hashFn items s).1 = [] := by
  induction items with
  | nil => simp [deduplicate_suggestions]
  | cons item rest ih =>
    by_cases h1 : item.suggestion = []
    · simpa [deduplicate_suggestions, h1] using
        ih fun it hit => h it (List.mem_cons_of_mem _ hit)
    · have h2 : hashFn item.suggestion item.quote ∈ s :=
        h item (List.mem_cons_self _ _) h1
      simpa [deduplicate_suggestions, h1, h2] using
        ih fun it hit => h it (List.mem_cons_of_mem _ hit)

/-- **C6.** Deduplication is idempotent: after a first call of
`deduplicate_suggestions(items, S)` has mutated the hash set, a second call on
the same items with the updated set keeps nothing. -/
theorem deduplicate_suggestions_idempotent (hashFn : PyStr → PyStr → PyStr)
    (items : List ReviewItem) (s : Finset PyStr) :
    (deduplicate_suggestions hashFn items
        (deduplicate_suggestions hashFn items s).2).1 = [] :=
  dedup_empty_of_all_mem hashFn items _ (dedup_hash_mem hashFn items s)

lemma dedup_kept_shape (hashFn : PyStr → PyStr → PyStr) (items : List ReviewItem)
    (s : Finset PyStr) :
    ∀ it ∈ (deduplicate_suggestions hashFn items s).1,
      it.suggestion ≠ [] ∧ it.hashVal.isSome := by
  induction items generalizing s with
  | nil => simp [deduplicate_suggestions]
  | cons item rest ih =>
    intro it hit
    by_cases h1 : item.suggestion = []
    · exact ih s it (by simpa [deduplicate_suggestions, h1] using hit)
    · by_cases h2 : hashFn item.suggestion item.quote ∈ s
      · exact ih s it (by simpa [deduplicate_suggestions, h1, h2] using hit)
      · simp only [deduplicate_suggestions, if_neg h1, if_neg h2] at hit
        rcases List.mem_cons.mp hit with rfl | hmem
        · exact ⟨h1, rfl⟩
        · exact ih _ it hmem

/-- **C10.** Every item kept by `deduplicate_suggestions` (and hence every
item returned by `review_document`) has a non-empty suggestion and carries a
hash; consequently the comment content assembled in `post_comments` is
non-empty, the byte splitter returns at least one part, and accessing the
first part (`parts[0]`) cannot fail. -/
theorem dedup_output_postable (hashFn : PyStr → PyStr → PyStr)
    (items : List ReviewItem) (s : Finset PyStr) :
    ∀ it ∈ (deduplicate_suggestions hashFn items s).1,
      it.suggestion ≠ [] ∧ it.hashVal.isSome ∧ commentContent it ≠ [] ∧
        (chunk_content (commentContent it)).head?.isSome := by
  intro it hit
  obtain ⟨hsugg, hhash⟩ := dedup_kept_shape hashFn items s it hit
  have hcontent : commentContent it ≠ [] := by
    unfold commentContent
    split
    · exact hsugg
    · simp
  refine ⟨hsugg, hhash, hcontent, ?_⟩
  have hflat := (chunk_content_parts_bounded (commentContent it)).2
  cases hsplit : chunk_content (commentContent it) with
  | nil => rw [hsplit] at hflat; simp at hflat; exact absurd hflat hcontent
  | cons p parts => simp

/-- Witness for `dedup_output_postable` at a concrete input. -/
theorem dedup_output_postable_witness :
    let kept : ReviewItem := ⟨[], ['o', 'k'], [], ['q'], 0, 1, some ['o', 'k', 'q']⟩
    kept.suggestion ≠ [] ∧ kept.hashVal.isSome ∧ commentContent kept ≠ [] ∧
      (chunk_content (commentContent kept)).head?.isSome :=
  dedup_output_postable (fun s q => s ++ q)
    [⟨[], ['o', 'k'], [], ['q'], 0, 1, none⟩] ∅
    ⟨[], ['o', 'k'], [], ['q'], 0, 1, some ['o', 'k', 'q']⟩ (by decide)

/-! ## Lemmas about `chunk_paragraphs` and `process_changed_ranges` -/

lemma joinSep_cons (sep : Char) (p : PyStr) (ps : List PyStr) :
    joinSep sep (p :: ps) = p ++ (if ps = [] then [] else sep :: joinSep sep ps) := by
  cases ps <;> simp [joinSep]

lemma joinSep_cons_of_ne_nil (sep : Char) (p : PyStr) (ps : List PyStr) (h : ps ≠ []) :
    joinSep sep (p :: ps) = p ++ sep :: joinSep sep ps := by
  cases ps with
  | nil => exact absurd rfl h
  | cons q rest => rfl

lemma joinSep_append_singleton (sep : Char) (r : PyStr) :
    ∀ current : List PyStr, current ≠ [] →
      joinSep sep (current ++ [r]) = joinSep sep current ++ sep :: r := by
  intro current
  induction current with
  | nil => intro h; exact absurd rfl h
  | cons p rest ih =>
    intro _
    cases rest with
    | nil => simp [joinSep]
    | cons q rest' =>
      rw [List.cons_append,
        joinSep_cons_of_ne_nil sep p ((q :: rest') ++ [r]) (by simp),
        joinSep_cons_of_ne_nil sep p (q :: rest') (by simp),
        ih (by simp)]
      simp

lemma joinSep_append_exists (sep : Char) (B : List PyStr) :
    ∀ A : List PyStr, A ≠ [] →
      ∃ t, joinSep sep (A ++ B) = joinSep sep A ++ t := by
  intro A
  induction A with
  | nil => intro h; exact absurd rfl h
  | cons a A' ih =>
    intro _
    cases A' with
    | nil =>
      cases B with
      | nil => exact ⟨[], by simp [joinSep]⟩
      | cons b B' => exact ⟨sep :: joinSep sep (b :: B'), by simp [joinSep]⟩
    | cons a' A'' =>
      obtain ⟨t, ht⟩ := ih (by simp)
      refine ⟨t, ?_⟩
      rw [List.cons_append,
        joinSep_cons_of_ne_nil sep a ((a' :: A'') ++ B) (by simp), ht,
        joinSep_cons_of_ne_nil sep a (a' :: A'') (by simp)]
      simp

lemma chunkParasLoop_ne_nil (mc : Nat) :
    ∀ (rest current : List PyStr) (clen : Nat), current ≠ [] →
      chunkParasLoop mc rest current clen ≠ [] := by
  intro rest
  induction rest with
  | nil => intro current clen h; simp [chunkParasLoop, h]
  | cons r rs ih =>
    intro current clen h
    simp only [chunkParasLoop]
    rw [if_neg h]
    by_cases hover : clen + (r.length + 1) > mc
    · rw [if_pos ⟨hover, h⟩]
      simp
    · rw [if_neg (by tauto : ¬ (clen + (r.length + 1) > mc ∧ current ≠ []))]
      exact ih _ _ (by simp)

lemma joinSep_chunkParasLoop (mc : Nat) :
    ∀ (rest current : List PyStr) (clen : Nat),
      joinSep '\n' (chunkParasLoop mc rest current clen) =
        if current = [] then joinSep '\n' rest
        else joinSep '\n' current ++
          (if rest = [] then [] else '\n' :: joinSep '\n' rest) := by
  intro rest
  induction rest with
  | nil =>
    intro current clen
    by_cases h : current = [] <;> simp [chunkParasLoop, h, joinNl, joinSep]
  | cons r rs ih =>
    intro current clen
    by_cases hcur : current = []
    · subst hcur
      simp only [chunkParasLoop, if_true]
      rw [if_neg (by simp : ¬ (clen + (r.length + 0) > mc ∧ ([] : List PyStr) ≠ [])),
        List.nil_append, ih [r] _,
        if_neg (show ¬ ([r] : List PyStr) = [] by simp),
        show joinSep '\n' [r] = r from rfl, ← joinSep_cons '\n' r rs]
    · simp only [chunkParasLoop]
      rw [if_neg hcur]
      by_cases hover : clen + (r.length + 1) > mc
      · rw [if_pos ⟨hover, hcur⟩,
          joinSep_cons_of_ne_nil '\n' _ _
            (chunkParasLoop_ne_nil mc rs [r] r.length (by simp)),
          ih [r] r.length, if_neg (show ¬ ([r] : List PyStr) = [] by simp),
          if_neg hcur, if_neg (show ¬ (r :: rs) = [] by simp),
          show joinSep '\n' [r] = r from rfl, ← joinSep_cons '\n' r rs]
        rfl
      · rw [if_neg (by tauto : ¬ (clen + (r.length + 1) > mc ∧ current ≠ [])),
          ih (current ++ [r]) _, if_neg (show ¬ (current ++ [r] = []) by simp),
          if_neg hcur, joinSep_append_singleton '\n' r current hcur,
          if_neg (show ¬ (r :: rs) = [] by simp)]
        simp only [List.append_assoc, List.cons_append]
        rw [← joinSep_cons '\n' r rs]

/-- Joining the chunks of `chunk_paragraphs` with newlines reconstructs the
newline-join of the input paragraphs (for any budget). -/
lemma joinNl_chunk_paragraphs (paragraphs : List PyStr) (maxChars : Nat) :
    joinNl (chunk_paragraphs paragraphs maxChars) = joinNl paragraphs := by
  show joinSep '\n' _ = joinSep '\n' _
  rw [chunk_paragraphs, joinSep_chunkParasLoop]
  simp

lemma buildOffsets_getD :
    ∀ (ps : List PyStr) (k acc : Nat), k ≤ ps.length →
      (buildOffsets acc ps).getD k 0 = acc + offSum ps k := by
  intro ps
  induction ps with
  | nil =>
    intro k acc hk
    have : k = 0 := by simpa using hk
    subst this
    simp [buildOffsets, offSum]
  | cons p rest ih =>
    intro k acc hk
    cases k with
    | zero => simp [buildOffsets, offSum]
    | succ k =>
      have hk' : k ≤ rest.length := by simpa using hk
      simp only [buildOffsets, List.getD_cons_succ, offSum]
      rw [ih k _ hk']
      omega

lemma joinNl_drop_offSum :
    ∀ (ps : List PyStr) (s : Nat), s ≤ ps.length →
      (joinNl ps).drop (offSum ps s) = joinNl (ps.drop s) := by
  intro ps
  induction ps with
  | nil =>
    intro s hs
    have : s = 0 := by simpa using hs
    subst this
    simp [offSum]
  | cons p rest ih =>
    intro s hs
    cases s with
    | zero => simp [offSum]
    | succ k =>
      cases rest with
      | nil =>
        have : k = 0 := by simpa using hs
        subst this
        simp [offSum, joinNl, joinSep]
      | cons r rs =>
        have hk : k ≤ (r :: rs).length := by simpa using hs
        simp only [offSum, List.drop_succ_cons]
        rw [joinNl, joinSep_cons, if_neg (by simp : ¬ (r :: rs) = [])]
        have : p.length + 1 + offSum (r :: rs) k =
            (p ++ ['\n']).length + offSum (r :: rs) k := by simp
        rw [this, show p ++ '\n' :: joinSep '\n' (r :: rs) =
          (p ++ ['\n']) ++ joinSep '\n' (r :: rs) by simp, List.drop_append]
        exact ih k hk

lemma chunksItems_quotes {ε : Type} (suggest : PyStr → PyStr → Except ε SuggestResp)
    (context : PyStr) (doc : PyStr) :
    ∀ (chunks : List PyStr) (pos : Nat) (tail : PyStr) (items : List ReviewItem),
      doc.drop pos = joinNl chunks ++ tail →
      chunksItems suggest context pos chunks = .ok items →
      ∀ it ∈ items,
        (doc.drop it.start_index).take (it.end_index - it.start_index) = it.quote := by
  intro chunks
  induction chunks with
  | nil =>
    intro pos tail items _ hok it hit
    simp only [chunksItems] at hok
    cases hok
    simp at hit
  | cons c rest ih =>
    intro pos tail items hdrop hok it hit
    cases hs : suggest c context with
    | error e => simp [chunksItems, hs] at hok
    | ok resp =>
      cases hrec : chunksItems suggest context
          (pos + c.length + (if rest = [] then 0 else 1)) rest with
      | error e => simp [chunksItems, hs, hrec] at hok
      | ok items' =>
        have hitems : items =
            { issue := resp.issue, suggestion := resp.suggestion,
              severity := resp.severity, quote := c, start_index := pos,
              end_index := pos + c.length, hashVal := none } :: items' := by
          simp only [chunksItems, hs, hrec] at hok
          cases hok
          rfl
        subst hitems
        rcases List.mem_cons.mp hit with rfl | hmem
        · simp only
          rw [hdrop, joinNl, joinSep_cons]
          by_cases hrest : rest = []
          · simp only [if_pos hrest, List.append_nil]
            rw [show pos + c.length - pos = c.length by omega]
            exact List.take_left c tail
          · simp only [if_neg hrest]
            rw [show pos + c.length - pos = c.length by omega, List.append_assoc]
            exact List.take_left c _
        · by_cases hrest : rest = []
          · subst hrest
            simp only [chunksItems] at hrec
            cases hrec
            simp at hmem
          · refine ih (pos + c.length + 1) tail items' ?_ ?_ it hmem
            · rw [joinNl, joinSep_cons, if_neg hrest] at hdrop
              have : doc.drop (pos + c.length + 1) =
                  (doc.drop pos).drop (c.length + 1) := by
                rw [List.drop_drop]
                ring_nf
              rw [this, hdrop]
              rw [show c ++ '\n' :: joinSep '\n' rest ++ tail =
                (c ++ ['\n']) ++ (joinSep '\n' rest ++ tail) by simp,
                show c.length + 1 = (c ++ ['\n']).length by simp]
              exact List.drop_left _ _
            · simpa [if_neg hrest] using hrec

lemma processRangesLoop_quotes {ε : Type} (ps : List PyStr)
    (suggest : PyStr → PyStr → Except ε SuggestResp) (context : PyStr) (cc : Nat) :
    ∀ (ranges : List (Int × Int)) (items : List ReviewItem),
      (∀ r ∈ ranges, 0 ≤ r.1 ∧ r.1 ≤ r.2 ∧ r.2 < (ps.length : Int)) →
      processRangesLoop ps (buildOffsets 0 ps) suggest context cc ranges = .ok items →
      ∀ it ∈ items,
        ((joinNl ps).drop it.start_index).take (it.end_index - it.start_index) =
          it.quote := by
  intro ranges
  induction ranges with
  | nil =>
    intro items _ hok it hit
    simp only [processRangesLoop] at hok
    cases hok
    simp at hit
  | cons se rest ih =>
    obtain ⟨s, e⟩ := se
    intro items hrng hok it hit
    obtain ⟨hs0, hse, helt⟩ := hrng (s, e) (List.mem_cons_self _ _)
    simp only at hs0 hse helt
    have he0 : (0 : Int) ≤ e := le_trans hs0 hse
    have hsval : ((s.toNat : Nat) : Int) = s := Int.toNat_of_nonneg hs0
    have heval : ((e.toNat : Nat) : Int) = e := Int.toNat_of_nonneg he0
    have hseN : s.toNat ≤ e.toNat := by omega
    have heltN : e.toNat < ps.length := by omega
    simp only [processRangesLoop] at hok
    cases hitemsr : chunksItems suggest context
        ((buildOffsets 0 ps).getD s.toNat 0)
        (chunk_paragraphs ((ps.drop s.toNat).take (e + 1 - s).toNat) cc) with
    | error er =>
      rw [hitemsr] at hok
      exact absurd hok (by simp)
    | ok itemsR =>
      rw [hitemsr] at hok
      cases hrest : processRangesLoop ps (buildOffsets 0 ps) suggest context cc rest with
      | error er =>
        rw [hrest] at hok
        exact absurd hok (by simp)
      | ok itemsRest =>
        rw [hrest] at hok
        have hitems : items = itemsR ++ itemsRest := by
          simp only [Except.ok.injEq] at hok
          exact hok.symm
        subst hitems
        rcases List.mem_append.mp hit with hmem | hmem
        · -- item from this range
          have hoff : (buildOffsets 0 ps).getD s.toNat 0 = offSum ps s.toNat := by
            simpa using buildOffsets_getD ps s.toNat 0 (by omega)
          have hslicene : (ps.drop s.toNat).take (e + 1 - s).toNat ≠ [] := by
            have hlen : ((ps.drop s.toNat).take (e + 1 - s).toNat).length =
                min ((e + 1 - s).toNat) (ps.length - s.toNat) := by
              simp [List.length_take, List.length_drop]
            intro hnil
            rw [hnil] at hlen
            simp only [List.length_nil] at hlen
            omega
          have hsplit : ps.drop s.toNat =
              (ps.drop s.toNat).take (e + 1 - s).toNat ++
                (ps.drop s.toNat).drop (e + 1 - s).toNat :=
            (List.take_append_drop _ _).symm
          obtain ⟨t, ht⟩ := joinSep_append_exists '\n'
            ((ps.drop s.toNat).drop (e + 1 - s).toNat)
            ((ps.drop s.toNat).take (e + 1 - s).toNat) hslicene
          have hdoc : (joinNl ps).drop (offSum ps s.toNat) =
              joinNl (chunk_paragraphs ((ps.drop s.toNat).take (e + 1 - s).toNat) cc)
                ++ t := by
            rw [joinNl_drop_offSum ps s.toNat (by omega), joinNl_chunk_paragraphs]
            conv_lhs => rw [show joinNl (ps.drop s.toNat) =
              joinSep '\n' (ps.drop s.toNat) from rfl, hsplit]
            exact ht
          refine chunksItems_quotes suggest context (joinNl ps)
            (chunk_paragraphs ((ps.drop s.toNat).take (e + 1 - s).toNat) cc)
            (offSum ps s.toNat) t itemsR hdoc ?_ it hmem
          rw [← hoff]
          exact hitemsr
        · exact ih itemsRest (fun r hr => hrng r (List.mem_cons_of_mem _ hr)) hrest it hmem

/-- **C2.** For valid inclusive ranges, `chunk_paragraphs` loses nothing:
joining its chunks with a newline reconstructs exactly the newline-join of the
sliced paragraphs; and every item produced by `process_changed_ranges` carries
offsets that slice the full reconstructed document text
(`"\n".join(paragraphs)`) exactly to the item's quote. -/
theorem process_changed_ranges_offsets {ε : Type} (paragraphs : List PyStr)
    (budget : Nat) (hbudget : 0 < budget) (s e : Nat) (hse : s ≤ e)
    (he : e < paragraphs.length) (ranges : List (Int × Int))
    (suggest : PyStr → PyStr → Except ε SuggestResp) (context : PyStr)
    (chunkChars : Nat) (items : List ReviewItem)
    (hranges : ∀ r ∈ ranges, 0 ≤ r.1 ∧ r.1 ≤ r.2 ∧ r.2 < (paragraphs.length : Int))
    (hok : process_changed_ranges paragraphs ranges suggest context chunkChars =
      .ok items) :
    joinNl (chunk_paragraphs ((paragraphs.drop s).take (e + 1 - s)) budget) =
      joinNl ((paragraphs.drop s).take (e + 1 - s)) ∧
    ∀ it ∈ items,
      ((joinNl paragraphs).drop it.start_index).take
          (it.end_index - it.start_index) = it.quote := by
  refine ⟨joinNl_chunk_paragraphs _ _, ?_⟩
  exact processRangesLoop_quotes paragraphs suggest context chunkChars ranges items
    hranges hok

/-- Witness for `process_changed_ranges_offsets` at a concrete input. -/
theorem process_changed_ranges_offsets_witness :
    joinNl (chunk_paragraphs
        ((([['a'], ['b', 'b'], ['c']] : List PyStr).drop 0).take (1 + 1 - 0)) 2) =
      joinNl ((([['a'], ['b', 'b'], ['c']] : List PyStr).drop 0).take (1 + 1 - 0)) ∧
    ∀ it ∈ ([⟨[], ['a'], [], ['a'], 0, 1, none⟩,
             ⟨[], ['b', 'b'], [], ['b', 'b'], 2, 4, none⟩] : List ReviewItem),
      ((joinNl [['a'], ['b', 'b'], ['c']]).drop it.start_index).take
          (it.end_index - it.start_index) = it.quote :=
  process_changed_ranges_offsets (ε := Unit) [['a'], ['b', 'b'], ['c']] 2
    (by decide) 0 1 (by decide) (by decide) [((0 : Int), (1 : Int))]
    (fun c _ => .ok ⟨[], c, []⟩) [] 2
    [⟨[], ['a'], [], ['a'], 0, 1, none⟩, ⟨[], ['b', 'b'], [], ['b', 'b'], 2, 4, none⟩]
    (by decide) rfl

/-! ## Lemmas about `get_suggestions` chunking -/

lemma range'_map_add (n : Nat) : ∀ (a step : Nat),
    List.range' a n step = (List.range' 0 n step).map (a + ·) := by
  induction n with
  | zero => intro a step; simp
  | succ n ih =>
    intro a step
    rw [List.range'_succ, List.range'_succ, List.map_cons]
    simp only [Nat.zero_add]
    rw [ih (a + step) step, ih step step, List.map_map]
    refine congrArg _ (List.map_congr_left ?_)
    intro i _
    simp [Function.comp, Nat.add_assoc]

lemma groqChunks_nil (size : Nat) (hs : 0 < size) : groqChunks [] size = [] := by
  unfold groqChunks
  rw [show ((List.length [] : Nat) + size - 1) / size = 0 from by
    simp only [List.length_nil, Nat.zero_add]
    exact Nat.div_eq_of_lt (by omega)]
  simp

lemma groqChunks_small (txt : PyStr) (size : Nat) (hs : 0 < size) (h0 : txt ≠ [])
    (hle : txt.length ≤ size) : groqChunks txt size = [txt] := by
  unfold groqChunks
  have hpos : 0 < txt.length := List.length_pos.mpr h0
  have hcount : (txt.length + size - 1) / size = 1 := by
    have h1 : txt.length + size - 1 = (txt.length - 1) + size := by omega
    rw [h1, Nat.add_div_right _ hs, Nat.div_eq_of_lt (by omega)]
  rw [hcount, List.range'_one]
  simp [List.take_of_length_le hle]

lemma groqChunks_step (txt : PyStr) (size : Nat) (hs : 0 < size)
    (hgt : size < txt.length) :
    groqChunks txt size = txt.take size :: groqChunks (txt.drop size) size := by
  unfold groqChunks
  have hcount : (txt.length + size - 1) / size =
      ((txt.drop size).length + size - 1) / size + 1 := by
    rw [List.length_drop]
    have h1 : txt.length + size - 1 = (txt.length - size + size - 1) + size := by omega
    rw [h1, Nat.add_div_right _ hs]
  rw [hcount, List.range'_succ, List.map_cons]
  simp only [List.drop_zero, Nat.zero_add]
  congr 1
  rw [range'_map_add _ size size, List.map_map]
  refine List.map_congr_left ?_
  intro i _
  simp only [Function.comp_apply]
  rw [List.drop_drop]

lemma groqChunks_spec (size : Nat) (hs : 0 < size) :
    ∀ (n : Nat) (txt : PyStr), txt.length ≤ n →
      (groqChunks txt size).flatten = txt ∧
      (∀ p ∈ groqChunks txt size, p.length ≤ size) ∧
      (∀ p ∈ (groqChunks txt size).dropLast, p.length = size) := by
  intro n
  induction n with
  | zero =>
    intro txt hlen
    have htxt : txt = [] := List.eq_nil_of_length_eq_zero (by omega)
    subst htxt
    simp [groqChunks_nil size hs]
  | succ n ih =>
    intro txt hlen
    by_cases h0 : txt = []
    · subst h0; simp [groqChunks_nil size hs]
    by_cases hle : txt.length ≤ size
    · rw [groqChunks_small txt size hs h0 hle]
      refine ⟨by simp, ?_, by simp⟩
      intro p hp
      have : p = txt := by simpa using hp
      subst this
      exact hle
    · push_neg at hle
      rw [groqChunks_step txt size hs hle]
      have hdlen : (txt.drop size).length ≤ n := by
        rw [List.length_drop]; omega
      obtain ⟨hflat, hbound, hfull⟩ := ih (txt.drop size) hdlen
      refine ⟨?_, ?_, ?_⟩
      · simp [hflat]
      · intro p hp
        rcases List.mem_cons.mp hp with rfl | hm
        · simp [List.length_take]
        · exact hbound p hm
      · have hne : groqChunks (txt.drop size) size ≠ [] := by
          intro hnil
          rw [hnil] at hflat
          have : (txt.drop size).length = 0 := by rw [← hflat]; rfl
          rw [List.length_drop] at this
          omega
        rw [List.dropLast_cons_of_ne_nil hne]
        intro p hp
        rcases List.mem_cons.mp hp with rfl | hm
        · rw [List.length_take]
          omega
        · exact hfull p hm

lemma flatten_flatMap {α β : Type} (l : List α) (f : α → List (List β)) :
    (l.flatMap f).flatten = (l.map (fun x => (f x).flatten)).flatten := by
  induction l with
  | nil => simp
  | cons a rest ih => simp [ih]

/-- **C7.** For text longer than the configured chunk size, `get_suggestions`
splits it into consecutive non-overlapping fixed-size chunks (the last
possibly shorter), issues exactly `⌈len/chunk_size⌉` remote calls — one per
chunk — when every call succeeds on the first attempt, and the combined
response's suggestion text is the concatenation of the per-chunk suggestion
texts in chunk order. -/
theorem get_suggestions_chunked (post : PyStr → GroqResp) (fmt : PyStr → PyStr)
    (chunkSize : Nat) (text : PyStr) (h1 : 0 < chunkSize)
    (h2 : chunkSize < text.length) :
    (groqChunks text chunkSize).flatten = text ∧
    (∀ p ∈ groqChunks text chunkSize, p.length ≤ chunkSize) ∧
    (∀ p ∈ (groqChunks text chunkSize).dropLast, p.length = chunkSize) ∧
    (get_suggestions post fmt chunkSize text).2 =
      (groqChunks text chunkSize).map fmt ∧
    (get_suggestions post fmt chunkSize text).2.length =
      (text.length + chunkSize - 1) / chunkSize ∧
    (get_suggestions post fmt chunkSize text).1 =
      ⟨[⟨⟨((groqChunks text chunkSize).map (fun p =>
          ((post (fmt p)).choices.map (fun ch => ch.message.content)).flatten)).flatten⟩⟩]⟩ := by
  have hspec := groqChunks_spec chunkSize h1 text.length text le_rfl
  have hnle : ¬ text.length ≤ chunkSize := by omega
  refine ⟨hspec.1, hspec.2.1, hspec.2.2, ?_, ?_, ?_⟩
  · simp [get_suggestions, hnle]
  · simp [get_suggestions, hnle, groqChunks, List.length_range']
  · simp only [get_suggestions, if_neg hnle, GroqResp.mk.injEq, List.cons.injEq,
      GroqChoice.mk.injEq, GroqMsg.mk.injEq, and_true]
    simp only [flatten_flatMap, List.map_map]
    rfl

/-- Witness for `get_suggestions_chunked` at a concrete input. -/
theorem get_suggestions_chunked_witness :
    (groqChunks ['a', 'b', 'c'] 2).flatten = ['a', 'b', 'c'] :=
  (get_suggestions_chunked (fun p => ⟨[⟨⟨p⟩⟩]⟩) id 2 ['a', 'b', 'c']
    (by decide) (by decide)).1

/-- **C9.** A `RateLimiter` built with `N = 2` requests per minute (minimum
spacing 30 s, window cap 2 per trailing 60 s): three `acquire()` calls at
simulated times `t = 0, 30, 50` behave as: the first two proceed without any
wait, and the third performs exactly one wait of 10 seconds before proceeding
at `t = 60` (with the expired `t = 0` timestamp pruned from the window). -/
theorem rate_limiter_two_per_minute_scenario :
    rateLimiterMaxCalls 2 = 2 ∧
    acquireAux 2 10 [] 0 = some ([0], 0, []) ∧
    acquireAux 2 10 [0] 30 = some ([0, 30], 30, []) ∧
    acquireAux 2 10 [0, 30] 50 = some ([30, 60], 60, [10]) := by
  refine ⟨by decide, ?_, ?_, ?_⟩
  · norm_num [acquireAux, pruneCalls]
  · norm_num [acquireAux, pruneCalls]
  · have hp1 : pruneCalls 50 [0, 30] = [0, 30] := by norm_num [pruneCalls]
    have hp2 : pruneCalls 60 [0, 30] = [30] := by norm_num [pruneCalls]
    have hin : acquireAux 2 9 [0, 30] 60 = some ([30, 60], 60, []) := by
      show acquireAux 2 (8 + 1) [0, 30] 60 = _
      rw [acquireAux]
      simp only [hp2]
      rw [if_pos ⟨by norm_num, Or.inr (by norm_num [List.getLast?])⟩]
      norm_num
    have hne : (([0, 30] : List ℚ) = []) = False := by simp
    show acquireAux 2 (9 + 1) [0, 30] 50 = _
    rw [acquireAux]
    simp only [hp1]
    rw [if_neg (by norm_num)]
    norm_num [hin, max_def, hne]

/-! ## The difflib alignment: lemmas for C1 -/

section MatcherLemmas

variable {α : Type} [DecidableEq α]

/-- One row of the dynamic program preserves the dictionary and best-block
invariants: starting from a previous-row dictionary valid for `r` rows
(`r + alo ≤ i`, the current row), any partially built new dictionary valid for
`r + 1` rows and any in-region best block stay valid. -/
lemma innerLoop_invariant (blo bhi i alo ahi r : Nat) (prev : Int → Nat)
    (hprev : ValidJ2 blo bhi r prev) (hr : r + alo ≤ i) (hi : i < ahi) :
    ∀ (js : List Nat) (new : Int → Nat) (best : Nat × Nat × Nat),
      ValidJ2 blo bhi (r + 1) new → BestBounds alo ahi blo bhi best →
      ValidJ2 blo bhi (r + 1) (innerLoop blo bhi i prev js new best).1 ∧
      BestBounds alo ahi blo bhi (innerLoop blo bhi i prev js new best).2 := by
  intro js
  induction js with
  | nil => intro new best hnew hbest; exact ⟨hnew, hbest⟩
  | cons j js ih =>
    intro new best hnew hbest
    rw [innerLoop]
    by_cases h1 : j < blo
    · rw [if_pos h1]; exact ih new best hnew hbest
    · rw [if_neg h1]
      by_cases h2 : bhi ≤ j
      · rw [if_pos h2]; exact ⟨hnew, hbest⟩
      · rw [if_neg h2]
        have hjb : blo ≤ j := Nat.le_of_not_lt h1
        have hjh : j < bhi := Nat.lt_of_not_le h2
        have hk1 : prev ((j : Int) - 1) + 1 ≤ r + 1 :=
          Nat.add_le_add_right (hprev ((j : Int) - 1)).1 1
        have hkcol : (blo : Int) ≤ (j : Int) - (prev ((j : Int) - 1) + 1 : Nat) + 1 := by
          rcases Nat.eq_zero_or_pos (prev ((j : Int) - 1)) with h0 | hp
          · rw [h0]; push_cast; omega
          · have := (hprev ((j : Int) - 1)).2 (by omega)
            push_cast at this ⊢; omega
        refine ih _ _ ?_ ?_
        · intro x
          by_cases hx : x = (j : Int)
          · simp only [hx, if_pos rfl]
            refine ⟨hk1, fun _ => ⟨hkcol, by exact_mod_cast hjh⟩⟩
          · simp only [if_neg hx]; exact hnew x
        · by_cases hbetter : best.2.2 < prev ((j : Int) - 1) + 1
          · simp only [if_pos hbetter]
            obtain ⟨hb1, hb2, hb3, hb4⟩ := hbest
            have hkk : prev ((j : Int) - 1) + 1 ≤ r + 1 := hk1
            have hjk : (blo : Int) ≤ (j : Int) - (prev ((j : Int) - 1) + 1 : Nat) + 1 :=
              hkcol
            constructor
            · show alo ≤ i + 1 - (prev ((j : Int) - 1) + 1); omega
            refine ⟨?_, ?_, ?_⟩
            · show i + 1 - (prev ((j : Int) - 1) + 1) + (prev ((j : Int) - 1) + 1) ≤ ahi
              omega
            · show blo ≤ j + 1 - (prev ((j : Int) - 1) + 1)
              push_cast at hjk; omega
            · show j + 1 - (prev ((j : Int) - 1) + 1) + (prev ((j : Int) - 1) + 1) ≤ bhi
              push_cast at hjk; omega
          · simp only [if_neg hbetter]; exact hbest

/-- The row fold of `phase1` keeps the best block inside the region. -/
lemma phase1Fold_bounds (a b : List α) (alo ahi blo bhi : Nat) :
    ∀ (n row : Nat) (st : (Int → Nat) × (Nat × Nat × Nat)),
      alo ≤ row → row + n ≤ ahi →
      ValidJ2 blo bhi (row - alo) st.1 → BestBounds alo ahi blo bhi st.2 →
      BestBounds alo ahi blo bhi
        (((List.range' row n).foldl
          (fun st i => innerLoop blo bhi i st.1 (rowPositions a b i) (fun _ => 0) st.2)
          st).2) := by
  intro n
  induction n with
  | zero => intro row st _ _ _ hbest; simpa using hbest
  | succ n ih =>
    intro row st hlo hhi hv hbest
    rw [List.range'_succ, List.foldl_cons]
    have hstep := innerLoop_invariant blo bhi row alo ahi (row - alo) st.1 hv
      (by omega) (by omega) (rowPositions a b row) (fun _ => 0) st.2
      (fun x => ⟨Nat.zero_le _, fun h => absurd rfl h⟩) hbest
    have hcast : ValidJ2 blo bhi (row + 1 - alo)
        (innerLoop blo bhi row st.1 (rowPositions a b row) (fun _ => 0) st.2).1 := by
      have : row + 1 - alo = row - alo + 1 := by omega
      rw [this]; exact hstep.1
    exact ih (row + 1) _ (by omega) (by omega) hcast hstep.2

/-- The dynamic-programming phase produces a block inside the region. -/
lemma phase1_bounds (a b : List α) (alo ahi blo bhi : Nat)
    (h1 : alo ≤ ahi) (h2 : blo ≤ bhi) :
    BestBounds alo ahi blo bhi (phase1 a b alo ahi blo bhi) := by
  unfold phase1
  exact phase1Fold_bounds a b alo ahi blo bhi (ahi - alo) alo
    ((fun _ => 0), (alo, blo, 0)) le_rfl (by omega)
    (fun x => ⟨Nat.zero_le _, fun h => absurd rfl h⟩)
    ⟨le_rfl, by show alo + 0 ≤ ahi; omega, le_rfl, by show blo + 0 ≤ bhi; omega⟩

/-- The leftwards extension loop keeps the block above `(alo, blo)` and
preserves both block ends. -/
lemma extendLeft_spec (a b : List α) (alo blo : Nat) :
    ∀ (i j size : Nat), alo ≤ i → blo ≤ j →
      alo ≤ (extendLeft a b alo blo i j size).1 ∧
      blo ≤ (extendLeft a b alo blo i j size).2.1 ∧
      (extendLeft a b alo blo i j size).1 + (extendLeft a b alo blo i j size).2.2
        = i + size ∧
      (extendLeft a b alo blo i j size).2.1 + (extendLeft a b alo blo i j size).2.2
        = j + size := by
  intro i
  induction i with
  | zero =>
    intro j size hi hj
    cases j with
    | zero => exact ⟨hi, hj, rfl, rfl⟩
    | succ j => exact ⟨hi, hj, rfl, rfl⟩
  | succ i ih =>
    intro j size hi hj
    cases j with
    | zero => exact ⟨hi, hj, rfl, rfl⟩
    | succ j =>
      rw [extendLeft]
      by_cases hc : alo ≤ i ∧ blo ≤ j ∧ elemEqB a b i j
      · rw [if_pos hc]
        obtain ⟨h1, h2, h3, h4⟩ := ih j (size + 1) hc.1 hc.2.1
        exact ⟨h1, h2, by omega, by omega⟩
      · rw [if_neg hc]; exact ⟨hi, hj, rfl, rfl⟩

/-- The rightwards extension loop keeps the block ends below `(ahi, bhi)`. -/
lemma extendRight_spec (a b : List α) (ahi bhi i j : Nat) :
    ∀ (rem size : Nat), i + size ≤ ahi → j + size ≤ bhi →
      i + extendRight a b ahi bhi i j rem size ≤ ahi ∧
      j + extendRight a b ahi bhi i j rem size ≤ bhi := by
  intro rem
  induction rem with
  | zero => intro size h1 h2; exact ⟨h1, h2⟩
  | succ rem ih =>
    intro size h1 h2
    rw [extendRight]
    by_cases hc : i + size < ahi ∧ j + size < bhi ∧ elemEqB a b (i + size) (j + size)
    · rw [if_pos hc]; exact ih (size + 1) hc.1 hc.2.1
    · rw [if_neg hc]; exact ⟨h1, h2⟩

/-- `find_longest_match` returns a block inside the queried region. -/
lemma find_longest_match_bounds (a b : List α) (alo ahi blo bhi : Nat)
    (h1 : alo ≤ ahi) (h2 : blo ≤ bhi) :
    matchInRegion (alo, ahi, blo, bhi) (find_longest_match a b alo ahi blo bhi) := by
  obtain ⟨hb1, hb2, hb3, hb4⟩ := phase1_bounds a b alo ahi blo bhi h1 h2
  obtain ⟨he1, he2, he3, he4⟩ := extendLeft_spec a b alo blo
    (phase1 a b alo ahi blo bhi).1 (phase1 a b alo ahi blo bhi).2.1
    (phase1 a b alo ahi blo bhi).2.2 hb1 hb3
  set L := extendLeft a b alo blo (phase1 a b alo ahi blo bhi).1
    (phase1 a b alo ahi blo bhi).2.1 (phase1 a b alo ahi blo bhi).2.2 with hLdef
  obtain ⟨hr1, hr2⟩ := extendRight_spec a b ahi bhi L.1 L.2.1
    (ahi - L.1 - L.2.2) L.2.2 (by omega) (by omega)
  exact ⟨he1, hr1, he2, hr2⟩


/-- Separation transfers from a region to its sub-regions. -/
lemma sepRR_of_subRegion {c r q : Nat × Nat × Nat × Nat}
    (hsub : subRegion c r) (hsep : sepRR r q) : sepRR c q := by
  obtain ⟨s1, s2, s3, s4⟩ := hsub
  rcases hsep with ⟨h1, h2⟩ | ⟨h1, h2⟩
  · exact Or.inl ⟨le_trans s2 h1, le_trans s4 h2⟩
  · exact Or.inr ⟨le_trans h1 s1, le_trans h2 s3⟩

/-- Region–block separation transfers to sub-regions. -/
lemma sepRM_of_subRegion {c r : Nat × Nat × Nat × Nat} {m : DiffMatch}
    (hsub : subRegion c r) (hsep : sepRM r m) : sepRM c m := by
  obtain ⟨s1, s2, s3, s4⟩ := hsub
  rcases hsep with ⟨h1, h2⟩ | ⟨h1, h2⟩
  · exact Or.inl ⟨le_trans s2 h1, le_trans s4 h2⟩
  · exact Or.inr ⟨le_trans h1 s1, le_trans h2 s3⟩

/-- `sepRR` is symmetric. -/
lemma sepRR_symm {r1 r2 : Nat × Nat × Nat × Nat} (h : sepRR r1 r2) : sepRR r2 r1 :=
  Or.symm h

/-- A block inside a region is separated from anything its region is
separated from (region side). -/
lemma sepRM_of_sepRR {q r : Nat × Nat × Nat × Nat} {m : DiffMatch}
    (hsep : sepRR q r) (hm : matchInRegion r m) : sepRM q m := by
  obtain ⟨m1, m2, m3, m4⟩ := hm
  rcases hsep with ⟨h1, h2⟩ | ⟨h1, h2⟩
  · exact Or.inl ⟨le_trans h1 m1, le_trans h2 m3⟩
  · exact Or.inr ⟨le_trans m2 h1, le_trans m4 h2⟩

/-- A block inside a region is separated from anything its region is
separated from (block side). -/
lemma sepMM_of_sepRM {r : Nat × Nat × Nat × Nat} {m m' : DiffMatch}
    (hm : matchInRegion r m) (hsep : sepRM r m') : sepMM m m' := by
  obtain ⟨m1, m2, m3, m4⟩ := hm
  rcases hsep with ⟨h1, h2⟩ | ⟨h1, h2⟩
  · exact Or.inl ⟨le_trans m2 h1, le_trans m4 h2⟩
  · exact Or.inr ⟨le_trans h1 m1, le_trans h2 m3⟩

/-- Invariant of the `while queue:` loop, for every pass count: if the stacked
regions are well-formed and pairwise separated, the collected blocks are
well-formed and pairwise separated, and every stacked region is separated
from every collected block, then the loop's output is a list of well-formed,
pairwise separated blocks. -/
lemma gmbLoop_spec (a b : List α) :
    ∀ (fuel : Nat) (stack : List (Nat × Nat × Nat × Nat)) (acc : List DiffMatch),
      (∀ r ∈ stack, regionWF a.length b.length r) →
      stack.Pairwise sepRR →
      (∀ m ∈ acc, matchWF a.length b.length m) →
      acc.Pairwise sepMM →
      (∀ r ∈ stack, ∀ m ∈ acc, sepRM r m) →
      (∀ m ∈ gmbLoop a b fuel stack acc, matchWF a.length b.length m) ∧
      (gmbLoop a b fuel stack acc).Pairwise sepMM := by
  intro fuel
  induction fuel with
  | zero => intro stack acc _ _ hacc haccp _; exact ⟨hacc, haccp⟩
  | succ fuel ih =>
    intro stack acc hwf hsep hacc haccp hsm
    match stack with
    | [] => exact ⟨hacc, haccp⟩
    | (alo, ahi, blo, bhi) :: queue =>
      rw [gmbLoop]
      have hreg := hwf _ (List.mem_cons_self _ _)
      obtain ⟨hg1, hg2, hg3, hg4⟩ := hreg
      dsimp only at hg1 hg2 hg3 hg4
      have hqwf : ∀ r ∈ queue, regionWF a.length b.length r :=
        fun r hr => hwf r (List.mem_cons_of_mem _ hr)
      have hqsep : queue.Pairwise sepRR := (List.pairwise_cons.mp hsep).2
      have hqhead : ∀ r ∈ queue, sepRR (alo, ahi, blo, bhi) r :=
        (List.pairwise_cons.mp hsep).1
      have hqsm : ∀ r ∈ queue, ∀ m ∈ acc, sepRM r m :=
        fun r hr => hsm r (List.mem_cons_of_mem _ hr)
      by_cases hz : (find_longest_match a b alo ahi blo bhi).size = 0
      · rw [if_pos hz]
        exact ih queue acc hqwf hqsep hacc haccp hqsm
      · rw [if_neg hz]
        have hm := find_longest_match_bounds a b alo ahi blo bhi hg1 hg3
        set m := find_longest_match a b alo ahi blo bhi with hmdef
        obtain ⟨hm1, hm2, hm3, hm4⟩ := hm
        dsimp only at hm1 hm2 hm3 hm4
        have hmwf : matchWF a.length b.length m :=
          ⟨Nat.one_le_iff_ne_zero.mpr hz, le_trans hm2 hg2, le_trans hm4 hg4⟩
        have hmem2 : ∀ c ∈ (if m.i + m.size < ahi ∧ m.j + m.size < bhi then
            [(m.i + m.size, ahi, m.j + m.size, bhi)] else []),
            c = (m.i + m.size, ahi, m.j + m.size, bhi) := by
          intro c hc
          by_cases h : m.i + m.size < ahi ∧ m.j + m.size < bhi
          · rw [if_pos h] at hc; simpa using hc
          · rw [if_neg h] at hc; simp at hc
        have hmem1 : ∀ c ∈ (if alo < m.i ∧ blo < m.j then
            [(alo, m.i, blo, m.j)] else []), c = (alo, m.i, blo, m.j) := by
          intro c hc
          by_cases h : alo < m.i ∧ blo < m.j
          · rw [if_pos h] at hc; simpa using hc
          · rw [if_neg h] at hc; simp at hc
        have hsub : ∀ c, (c = (m.i + m.size, ahi, m.j + m.size, bhi) ∨
            c = (alo, m.i, blo, m.j)) → subRegion c (alo, ahi, blo, bhi) := by
          rintro c (rfl | rfl)
          · exact ⟨by dsimp only; omega, le_rfl, by dsimp only; omega, le_rfl⟩
          · exact ⟨le_rfl, by dsimp only; omega, le_rfl, by dsimp only; omega⟩
        have hcwf : ∀ c, (c = (m.i + m.size, ahi, m.j + m.size, bhi) ∨
            c = (alo, m.i, blo, m.j)) → regionWF a.length b.length c := by
          rintro c (rfl | rfl)
          · exact ⟨by dsimp only; omega, hg2, by dsimp only; omega, hg4⟩
          · exact ⟨hm1, by dsimp only; omega, hm3, by dsimp only; omega⟩
        have hcm : ∀ c, (c = (m.i + m.size, ahi, m.j + m.size, bhi) ∨
            c = (alo, m.i, blo, m.j)) → sepRM c m := by
          rintro c (rfl | rfl)
          · exact Or.inr ⟨le_rfl, le_rfl⟩
          · exact Or.inl ⟨le_rfl, le_rfl⟩
        have hmemnew : ∀ c ∈ ((if m.i + m.size < ahi ∧ m.j + m.size < bhi then
              [(m.i + m.size, ahi, m.j + m.size, bhi)] else []) ++
            (if alo < m.i ∧ blo < m.j then [(alo, m.i, blo, m.j)] else []) ++ queue),
            (c = (m.i + m.size, ahi, m.j + m.size, bhi) ∨
              c = (alo, m.i, blo, m.j)) ∨ c ∈ queue := by
          intro c hc
          rcases List.mem_append.mp hc with hc' | hc'
          · rcases List.mem_append.mp hc' with hc'' | hc''
            · exact Or.inl (Or.inl (hmem2 c hc''))
            · exact Or.inl (Or.inr (hmem1 c hc''))
          · exact Or.inr hc'
        refine ih _ (m :: acc) ?_ ?_ ?_ ?_ ?_
        · intro c hc
          rcases hmemnew c hc with hor | hq
          · exact hcwf c hor
          · exact hqwf c hq
        · rw [List.pairwise_append]
          refine ⟨?_, hqsep, ?_⟩
          · rw [List.pairwise_append]
            refine ⟨?_, ?_, ?_⟩
            · by_cases h : m.i + m.size < ahi ∧ m.j + m.size < bhi
              · rw [if_pos h]; exact List.pairwise_singleton _ _
              · rw [if_neg h]; exact List.Pairwise.nil
            · by_cases h : alo < m.i ∧ blo < m.j
              · rw [if_pos h]; exact List.pairwise_singleton _ _
              · rw [if_neg h]; exact List.Pairwise.nil
            · intro c hc c' hc'
              rw [hmem2 c hc, hmem1 c' hc']
              exact Or.inr ⟨by dsimp only; omega, by dsimp only; omega⟩
          · intro c hc q hq
            have hor : c = (m.i + m.size, ahi, m.j + m.size, bhi) ∨
                c = (alo, m.i, blo, m.j) := by
              rcases List.mem_append.mp hc with hc' | hc'
              · exact Or.inl (hmem2 c hc')
              · exact Or.inr (hmem1 c hc')
            exact sepRR_of_subRegion (hsub c hor) (hqhead q hq)
        · intro m' hm'
          rcases List.mem_cons.mp hm' with rfl | hm'
          · exact hmwf
          · exact hacc m' hm'
        · rw [List.pairwise_cons]
          refine ⟨?_, haccp⟩
          intro m' hm'
          exact sepMM_of_sepRM ⟨hm1, hm2, hm3, hm4⟩
            (hsm _ (List.mem_cons_self _ _) m' hm')
        · intro c hc m' hm'
          rcases List.mem_cons.mp hm' with rfl | hm'
          · rcases hmemnew c hc with hor | hq
            · exact hcm c hor
            · exact sepRM_of_sepRR (sepRR_symm (hqhead c hq))
                ⟨hm1, hm2, hm3, hm4⟩
          · rcases hmemnew c hc with hor | hq
            · exact sepRM_of_subRegion (hsub c hor)
                (hsm _ (List.mem_cons_self _ _) m' hm')
            · exact hqsm c hq m' hm'


/-- `sepMM` is symmetric. -/
lemma sepMM_symm {m1 m2 : DiffMatch} (h : sepMM m1 m2) : sepMM m2 m1 :=
  Or.symm h

/-- Sorting pairwise-separated, non-empty blocks by `matchLe` chains them:
each block ends strictly before the next begins, in both coordinates. -/
lemma sorted_blocks_chain (la lb : Nat) (l : List DiffMatch)
    (hwf : ∀ m ∈ l, matchWF la lb m) (hsep : l.Pairwise sepMM) :
    (l.insertionSort matchLe).Chain' matchBefore ∧
    ∀ m ∈ l.insertionSort matchLe, matchWF la lb m := by
  have hperm := List.perm_insertionSort matchLe l
  have hwf' : ∀ m ∈ l.insertionSort matchLe, matchWF la lb m :=
    fun m hm => hwf m (hperm.mem_iff.mp hm)
  have hsep' : (l.insertionSort matchLe).Pairwise sepMM :=
    hsep.perm hperm.symm (by intro x y h; exact sepMM_symm h)
  have hsort : (l.insertionSort matchLe).Pairwise matchLe :=
    List.sorted_insertionSort matchLe l
  have hpair : (l.insertionSort matchLe).Pairwise matchBefore := by
    refine (hsort.and hsep').imp_of_mem ?_
    intro m1 m2 h1 h2 hb
    obtain ⟨hle, hsep12⟩ := hb
    have hw2 := hwf' m2 h2
    rcases hsep12 with hbefore | hafter
    · exact hbefore
    · exfalso
      obtain ⟨ha1, ha2⟩ := hafter
      obtain ⟨hs, _, _⟩ := hw2
      unfold matchLe at hle
      omega
  exact ⟨hpair.chain', hwf'⟩

/-- The collapse loop of `get_matching_blocks` on a chained list of blocks
produces a chained list of well-formed blocks whose head dominates the
pending block's origin. -/
lemma collapseBlocks_spec (la lb : Nat) :
    ∀ (l : List DiffMatch) (i1 j1 k1 : Nat),
      (∀ m ∈ l, matchWF la lb m) →
      l.Chain' matchBefore →
      (∀ m ∈ l.head?, i1 + k1 ≤ m.i ∧ j1 + k1 ≤ m.j) →
      i1 + k1 ≤ la → j1 + k1 ≤ lb →
      (collapseBlocks l i1 j1 k1).Chain' matchBefore ∧
      (∀ h ∈ (collapseBlocks l i1 j1 k1).head?, i1 ≤ h.i ∧ j1 ≤ h.j) ∧
      (∀ m ∈ collapseBlocks l i1 j1 k1, matchWF la lb m) := by
  intro l
  induction l with
  | nil =>
    intro i1 j1 k1 _ _ _ hla hlb
    rw [collapseBlocks]
    by_cases hk : k1 ≠ 0
    · rw [if_pos hk]
      refine ⟨List.chain'_singleton _, ?_, ?_⟩
      · intro h hh
        simp only [List.head?_cons, Option.mem_def, Option.some.injEq] at hh
        subst hh
        exact ⟨le_rfl, le_rfl⟩
      · intro m hm
        simp only [List.mem_singleton] at hm
        subst hm
        exact ⟨Nat.one_le_iff_ne_zero.mpr hk, hla, hlb⟩
    · rw [if_neg hk]
      exact ⟨List.chain'_nil, by simp, by simp⟩
  | cons m rest ih =>
    intro i1 j1 k1 hwf hchain hhead hla hlb
    have hm := hwf m (List.mem_cons_self _ _)
    obtain ⟨hms, hmi, hmj⟩ := hm
    have hmh := hhead m (by simp)
    have hrwf : ∀ m' ∈ rest, matchWF la lb m' :=
      fun m' hm' => hwf m' (List.mem_cons_of_mem _ hm')
    have hrchain : rest.Chain' matchBefore := hchain.tail
    have hrhead : ∀ m' ∈ rest.head?, m.i + m.size ≤ m'.i ∧ m.j + m.size ≤ m'.j := by
      intro m' hm'
      exact (List.chain'_cons'.mp hchain).1 m' hm'
    rw [collapseBlocks]
    by_cases hadj : i1 + k1 = m.i ∧ j1 + k1 = m.j
    · rw [if_pos hadj]
      have := ih i1 j1 (k1 + m.size) hrwf hrchain
        (by intro m' hm'; have := hrhead m' hm'; omega)
        (by omega) (by omega)
      exact this
    · rw [if_neg hadj]
      have hrec := ih m.i m.j m.size hrwf hrchain hrhead hmi hmj
      by_cases hk : k1 ≠ 0
      · rw [if_pos hk]
        rw [List.singleton_append]
        refine ⟨?_, ?_, ?_⟩
        · rw [List.chain'_cons']
          refine ⟨?_, hrec.1⟩
          intro h hh
          have hd := hrec.2.1 h hh
          refine ⟨?_, ?_⟩ <;> dsimp only <;> omega
        · intro h hh
          simp only [List.head?_cons, Option.mem_def, Option.some.injEq] at hh
          subst hh
          exact ⟨le_rfl, le_rfl⟩
        · intro m' hm'
          rcases List.mem_cons.mp hm' with rfl | hm'
          · exact ⟨Nat.one_le_iff_ne_zero.mpr hk, hla, hlb⟩
          · exact hrec.2.2 m' hm'
      · rw [if_neg hk]
        rw [List.nil_append]
        refine ⟨hrec.1, ?_, hrec.2.2⟩
        intro h hh
        have := hrec.2.1 h hh
        omega


/-- `get_matching_blocks`: chained in both coordinates, within bounds, and
all blocks except the final sentinel are non-empty. -/
lemma get_matching_blocks_spec (a b : List α) :
    (get_matching_blocks a b).Chain' matchBefore ∧
    (∀ m ∈ get_matching_blocks a b,
      m.i + m.size ≤ a.length ∧ m.j + m.size ≤ b.length) ∧
    (∀ m ∈ (get_matching_blocks a b).dropLast, 1 ≤ m.size) := by
  have hcollect := gmbLoop_spec a b (a.length + b.length + 1)
    [(0, a.length, 0, b.length)] []
    (by
      intro r hr
      simp only [List.mem_singleton] at hr
      subst hr
      exact ⟨Nat.zero_le _, le_rfl, Nat.zero_le _, le_rfl⟩)
    (List.pairwise_singleton _ _)
    (by simp) (List.Pairwise.nil) (by simp)
  have hsorted := sorted_blocks_chain a.length b.length
    (gmbLoop a b (a.length + b.length + 1) [(0, a.length, 0, b.length)] [])
    hcollect.1 hcollect.2
  have hcollapse := collapseBlocks_spec a.length b.length
    ((gmbLoop a b (a.length + b.length + 1)
      [(0, a.length, 0, b.length)] []).insertionSort matchLe) 0 0 0
    hsorted.2 hsorted.1
    (by intro m _; exact ⟨Nat.zero_le _, Nat.zero_le _⟩)
    (Nat.zero_le _) (Nat.zero_le _)
  unfold get_matching_blocks
  refine ⟨?_, ?_, ?_⟩
  · rw [List.chain'_append]
    refine ⟨hcollapse.1, List.chain'_singleton _, ?_⟩
    intro x hx y hy
    simp only [List.head?_cons, Option.mem_def, Option.some.injEq] at hy
    subst hy
    have := hcollapse.2.2 x (List.mem_of_mem_getLast? hx)
    exact ⟨this.2.1, this.2.2⟩
  · intro m hm
    rcases List.mem_append.mp hm with hm' | hm'
    · have := hcollapse.2.2 m hm'
      exact ⟨this.2.1, this.2.2⟩
    · simp only [List.mem_singleton] at hm'
      subst hm'
      exact ⟨le_rfl, le_rfl⟩
  · rw [List.dropLast_concat]
    intro m hm
    exact (hcollapse.2.2 m hm).1

/-- The opcode sweep: the `(b1, b2 - 1)` pairs of the non-`equal` opcodes are
in-bounds, near-well-formed (`b1 ≤ b2`), and strictly ascending with
disjoint ranges. -/
lemma opcodesLoop_ranges (lb : Nat) :
    ∀ (blocks : List DiffMatch) (ci cj : Nat),
      blocks.Chain' matchBefore →
      (∀ m ∈ blocks.head?, ci ≤ m.i ∧ cj ≤ m.j) →
      (∀ m ∈ blocks, m.j + m.size ≤ lb) →
      (∀ m ∈ blocks.dropLast, 1 ≤ m.size) →
      (∀ r ∈ ((opcodesLoop blocks ci cj).filter
            (fun op => decide (op.tag ≠ DiffTag.equal))).map
          (fun op => ((op.b1 : Nat), (op.b2 : Nat))),
        cj ≤ r.1 ∧ r.1 ≤ r.2 ∧ r.2 ≤ lb) ∧
      (((opcodesLoop blocks ci cj).filter
            (fun op => decide (op.tag ≠ DiffTag.equal))).map
          (fun op => ((op.b1 : Nat), (op.b2 : Nat)))).Chain'
        (fun r1 r2 => r1.1 < r2.1 ∧ r1.2 ≤ r2.1) := by
  intro blocks
  induction blocks with
  | nil =>
    intro ci cj _ _ _ _
    rw [opcodesLoop]
    exact ⟨by simp, by simp⟩
  | cons m rest ih =>
    intro ci cj hchain hhead hbnd hsz
    have hm := hhead m (by simp)
    have hmb := hbnd m (List.mem_cons_self _ _)
    have hrchain : rest.Chain' matchBefore := hchain.tail
    have hrhead : ∀ m' ∈ rest.head?, m.i + m.size ≤ m'.i ∧ m.j + m.size ≤ m'.j :=
      (List.chain'_cons'.mp hchain).1
    have hrbnd : ∀ m' ∈ rest, m'.j + m'.size ≤ lb :=
      fun m' hm' => hbnd m' (List.mem_cons_of_mem _ hm')
    have hrsz : ∀ m' ∈ rest.dropLast, 1 ≤ m'.size := by
      intro m' hm'
      cases rest with
      | nil => simp at hm'
      | cons r rest' =>
        exact hsz m' (by
          rw [List.dropLast_cons₂]
          exact List.mem_cons_of_mem _ hm')
    obtain ⟨ihb, ihc⟩ := ih (m.i + m.size) (m.j + m.size) hrchain
      (by intro m' hm'; have := hrhead m' hm'; omega) hrbnd hrsz
    have hsplit : ((opcodesLoop (m :: rest) ci cj).filter
          (fun op => decide (op.tag ≠ DiffTag.equal))).map
        (fun op => ((op.b1 : Nat), (op.b2 : Nat))) =
      (if ci < m.i ∨ cj < m.j then [(cj, m.j)] else []) ++
        ((opcodesLoop rest (m.i + m.size) (m.j + m.size)).filter
            (fun op => decide (op.tag ≠ DiffTag.equal))).map
          (fun op => ((op.b1 : Nat), (op.b2 : Nat))) := by
      have heq : ((if m.size ≠ 0 then
            [(⟨DiffTag.equal, m.i, m.i + m.size, m.j, m.j + m.size⟩ : Opcode)]
          else []).filter (fun op => decide (op.tag ≠ DiffTag.equal))).map
          (fun op => ((op.b1 : Nat), (op.b2 : Nat))) = [] := by
        split_ifs <;> rfl
      have hpre : ((if ci < m.i ∧ cj < m.j then
            [(⟨DiffTag.replace, ci, m.i, cj, m.j⟩ : Opcode)]
          else if ci < m.i then [(⟨DiffTag.delete, ci, m.i, cj, m.j⟩ : Opcode)]
          else if cj < m.j then [(⟨DiffTag.insert, ci, m.i, cj, m.j⟩ : Opcode)]
          else []).filter (fun op => decide (op.tag ≠ DiffTag.equal))).map
          (fun op => ((op.b1 : Nat), (op.b2 : Nat))) =
          if ci < m.i ∨ cj < m.j then [(cj, m.j)] else [] := by
        split_ifs <;> first | rfl | (exfalso; omega)
      rw [opcodesLoop]
      simp only [List.filter_append, List.map_append]
      rw [heq, List.append_nil, hpre]
    rw [hsplit]
    by_cases hc : ci < m.i ∨ cj < m.j
    · rw [if_pos hc, List.singleton_append]
      constructor
      · intro r hr
        rcases List.mem_cons.mp hr with rfl | hr'
        · exact ⟨le_rfl, hm.2, by omega⟩
        · have := ihb r hr'
          exact ⟨by omega, this.2.1, this.2.2⟩
      · rw [List.chain'_cons']
        refine ⟨?_, ihc⟩
        intro r hr
        have hmem : r ∈ ((opcodesLoop rest (m.i + m.size) (m.j + m.size)).filter
              (fun op => decide (op.tag ≠ DiffTag.equal))).map
            (fun op => ((op.b1 : Nat), (op.b2 : Nat))) :=
          List.mem_of_mem_head? hr
        have hrb := ihb r hmem
        have hszm : 1 ≤ m.size := by
          apply hsz m
          cases rest with
          | nil =>
            exfalso
            have : ((opcodesLoop ([] : List DiffMatch)
                (m.i + m.size) (m.j + m.size)).filter
                  (fun op => decide (op.tag ≠ DiffTag.equal))).map
                (fun op => ((op.b1 : Nat), (op.b2 : Nat))) = [] := by
              rw [opcodesLoop]; simp
            rw [this] at hr
            simp at hr
          | cons r' rest' =>
            rw [List.dropLast_cons₂]
            exact List.mem_cons_self _ _
        exact ⟨by omega, by omega⟩
    · rw [if_neg hc, List.nil_append]
      refine ⟨?_, ihc⟩
      intro r hr
      have := ihb r hr
      exact ⟨by omega, this.2.1, this.2.2⟩


/-- `detect_changed_ranges`: every emitted pair `(start, end)` satisfies
`0 ≤ start ≤ end + 1 ≤ len(new)`, and consecutive pairs have strictly
ascending starts and disjoint ranges (`prev.end < next.start`). -/
lemma detect_changed_ranges_spec (old new : List α) :
    (∀ r ∈ detect_changed_ranges old new,
      0 ≤ r.1 ∧ r.1 ≤ r.2 + 1 ∧ r.2 + 1 ≤ (new.length : Int)) ∧
    (detect_changed_ranges old new).Chain'
      (fun r1 r2 => r1.1 < r2.1 ∧ r1.2 < r2.1) := by
  obtain ⟨hgchain, hgbnd, hgsz⟩ := get_matching_blocks_spec old new
  obtain ⟨hb, hc⟩ := opcodesLoop_ranges new.length (get_matching_blocks old new)
    0 0 hgchain (by intro m _; exact ⟨Nat.zero_le _, Nat.zero_le _⟩)
    (fun m hm => (hgbnd m hm).2) hgsz
  have hrw : detect_changed_ranges old new =
      (((opcodesLoop (get_matching_blocks old new) 0 0).filter
          (fun op => decide (op.tag ≠ DiffTag.equal))).map
        (fun op => ((op.b1 : Nat), (op.b2 : Nat)))).map
        (fun r => ((r.1 : Int), (r.2 : Int) - 1)) := by
    unfold detect_changed_ranges get_opcodes
    rw [List.map_map]
    rfl
  rw [hrw]
  constructor
  · intro r hr
    rw [List.mem_map] at hr
    obtain ⟨s, hs, rfl⟩ := hr
    have := hb s hs
    refine ⟨?_, ?_, ?_⟩ <;> dsimp only <;> omega
  · rw [List.chain'_map]
    refine hc.imp ?_
    intro s1 s2 h
    dsimp only
    omega

/-- A column listed for some row of the self-comparison is itself a row with
the same position list, and is in bounds. -/
lemma rowPositions_self_eq {l : List α} {i j : Nat} (hj : j ∈ rowPositions l l i) :
    rowPositions l l j = rowPositions l l i ∧ j < l.length := by
  cases hi : l.get? i with
  | none =>
    rw [rowPositions, hi] at hj
    simp at hj
  | some x =>
    rw [rowPositions, hi] at hj
    dsimp only at hj
    unfold b2j at hj
    by_cases hjunk : 200 ≤ l.length ∧ l.length / 100 + 1 < (positionsOf l x).length
    · rw [if_pos hjunk] at hj; simp at hj
    · rw [if_neg hjunk] at hj
      unfold positionsOf at hj
      rw [List.mem_filter] at hj
      obtain ⟨hrange, heq⟩ := hj
      rw [List.mem_range] at hrange
      have hgetj : l.get? j = some x := of_decide_eq_true heq
      constructor
      · rw [rowPositions, rowPositions, hgetj, hi]
      · exact hrange

/-- In the self-comparison, a row with a non-empty position list lists its own
index. -/
lemma self_mem_rowPositions {l : List α} {i : Nat} (hi : i < l.length)
    (hne : rowPositions l l i ≠ []) : i ∈ rowPositions l l i := by
  cases hgi : l.get? i with
  | none =>
    rw [List.get?_eq_none] at hgi
    omega
  | some x =>
    rw [rowPositions, hgi] at hne ⊢
    dsimp only at hne ⊢
    unfold b2j at hne ⊢
    by_cases hjunk : 200 ≤ l.length ∧ l.length / 100 + 1 < (positionsOf l x).length
    · rw [if_pos hjunk] at hne; exact absurd rfl hne
    · rw [if_neg hjunk]
      unfold positionsOf
      rw [List.mem_filter, List.mem_range]
      exact ⟨hi, by rw [hgi]; exact decide_eq_true rfl⟩

/-- Position lists are strictly ascending. -/
lemma rowPositions_sorted (a b : List α) (i : Nat) :
    List.Sorted (· < ·) (rowPositions a b i) := by
  rw [rowPositions]
  cases a.get? i with
  | none => exact List.sorted_nil
  | some x =>
    dsimp only
    unfold b2j
    by_cases hjunk : 200 ≤ b.length ∧ b.length / 100 + 1 < (positionsOf b x).length
    · rw [if_pos hjunk]; exact List.sorted_nil
    · rw [if_neg hjunk]
      unfold positionsOf
      exact (List.pairwise_lt_range b.length).filter _

/-- The diagonal chain grows by one at any row listed as a column. -/
lemma dAt_succ_of_mem {l : List α} {i j : Nat} (hj : j ∈ rowPositions l l i) :
    dAt l (j + 1) = dAt l j + 1 := by
  have h := (rowPositions_self_eq hj).1
  have hne : rowPositions l l j ≠ [] := by
    rw [h]; exact List.ne_nil_of_mem hj
  rw [dAt, if_neg hne]


/-- Row invariant of the dynamic program when comparing `l` with itself:
processing the (sorted) position list of row `i` keeps the best block on the
diagonal.  `prev` is the previous row's dictionary: entries are bounded by
`dAt l i`, vanish at negative keys, entries left of the diagonal are bounded
by the diagonal chain through their column, and the diagonal entry equals
`dAt l i` exactly.  The flag hypothesis records that either the diagonal
column `i` is still pending in `js` or the best size already dominates
`dAt l (i + 1)`. -/
lemma innerLoopDiag (l : List α) (n : Nat) (hn : n = l.length) (i : Nat)
    (hi : i < n) (hJne : rowPositions l l i ≠ []) (prev : Int → Nat)
    (hp1 : ∀ x, prev x ≤ dAt l i)
    (hp2 : ∀ x : Int, x < 0 → prev x = 0)
    (hp3 : ∀ j : Nat, j < i → prev (j : Int) ≤ dAt l (j + 1))
    (hp4 : prev ((i : Int) - 1) = dAt l i) :
    ∀ (js : List Nat) (new : Int → Nat) (best : Nat × Nat × Nat),
      js.Sorted (· < ·) →
      (∀ j ∈ js, j ∈ rowPositions l l i) →
      (∀ x : Int, x < 0 → new x = 0) →
      (∀ j : Nat, j < i → new (j : Int) ≤ dAt l (j + 1)) →
      (∀ x, new x ≤ dAt l i + 1) →
      ((i ∈ js ∧ new (i : Int) = 0) ∨ new (i : Int) = dAt l i + 1) →
      best.1 = best.2.1 →
      (∀ i', i' ≤ i → dAt l i' ≤ best.2.2) →
      (i ∈ js ∨ dAt l (i + 1) ≤ best.2.2) →
      (∀ x : Int, x < 0 → (innerLoop 0 n i prev js new best).1 x = 0) ∧
      (∀ j : Nat, j < i + 1 →
        (innerLoop 0 n i prev js new best).1 (j : Int) ≤ dAt l (j + 1)) ∧
      (∀ x, (innerLoop 0 n i prev js new best).1 x ≤ dAt l (i + 1)) ∧
      (innerLoop 0 n i prev js new best).1 (i : Int) = dAt l (i + 1) ∧
      (innerLoop 0 n i prev js new best).2.1 =
        (innerLoop 0 n i prev js new best).2.2.1 ∧
      (∀ i', i' ≤ i + 1 → dAt l i' ≤ (innerLoop 0 n i prev js new best).2.2.2) := by
  have hdA : dAt l (i + 1) = dAt l i + 1 := by rw [dAt, if_neg hJne]
  intro js
  induction js with
  | nil =>
    intro new best _ _ n1 n2 n3 n4 b1 b2 b3
    rw [innerLoop]
    dsimp only
    have h4 : new (i : Int) = dAt l i + 1 := by
      rcases n4 with ⟨habs, _⟩ | h4
      · exact absurd habs (List.not_mem_nil _)
      · exact h4
    refine ⟨n1, ?_, ?_, ?_, b1, ?_⟩
    · intro j hj
      rcases Nat.lt_succ_iff_lt_or_eq.mp hj with h | rfl
      · exact n2 j h
      · rw [h4, hdA]
    · intro x; rw [hdA]; exact n3 x
    · rw [h4, hdA]
    · intro i' hi'
      rcases Nat.lt_succ_iff_lt_or_eq.mp (Nat.lt_succ_of_le hi') with h | rfl
      · exact b2 i' (by omega)
      · rcases b3 with habs | h
        · exact absurd habs (List.not_mem_nil _)
        · exact h
  | cons j js ih =>
    intro new best hsort hsub n1 n2 n3 n4 b1 b2 b3
    have hjJ : j ∈ rowPositions l l i := hsub j (List.mem_cons_self _ _)
    have hjprops := rowPositions_self_eq hjJ
    have hjn : j < n := hn ▸ hjprops.2
    have hdAj : dAt l (j + 1) = dAt l j + 1 := dAt_succ_of_mem hjJ
    have hsort' : js.Sorted (· < ·) := (List.pairwise_cons.mp hsort).2
    have hlt : ∀ a ∈ js, j < a := (List.pairwise_cons.mp hsort).1
    have hsub' : ∀ j' ∈ js, j' ∈ rowPositions l l i :=
      fun j' hj' => hsub j' (List.mem_cons_of_mem _ hj')
    rw [innerLoop]
    rw [if_neg (Nat.not_lt_zero j)]
    rw [if_neg (not_le.mpr hjn)]
    dsimp only
    rcases Nat.lt_trichotomy j i with hji | heq | hij
    · -- j < i: the chain through column j is dominated by the diagonal chain
      -- at row j, which the best size already covers.
      have hk : prev ((j : Int) - 1) + 1 ≤ dAt l (j + 1) := by
        rcases Nat.eq_zero_or_pos j with rfl | hjpos
        · rw [show ((0 : Nat) : Int) - 1 = (-1 : Int) by norm_num,
            hp2 (-1) (by norm_num), hdAj]
          have h0 : dAt l 0 = 0 := rfl
          omega
        · rw [show ((j : Int) - 1) = ((j - 1 : Nat) : Int) by push_cast; omega]
          have h1 := hp3 (j - 1) (by omega)
          have h2 : j - 1 + 1 = j := by omega
          rw [h2] at h1
          omega
      have hkb : prev ((j : Int) - 1) + 1 ≤ best.2.2 :=
        le_trans hk (b2 (j + 1) (by omega))
      rw [if_neg (not_lt.mpr hkb)]
      refine ih _ best hsort' hsub' ?_ ?_ ?_ ?_ b1 b2 ?_
      · intro x hx
        rw [if_neg (by omega : ¬ x = (j : Int))]
        exact n1 x hx
      · intro j' hj'
        by_cases hx : (j' : Int) = (j : Int)
        · rw [if_pos hx]
          have hjj : j' = j := by exact_mod_cast hx
          subst hjj
          exact hk
        · rw [if_neg hx]
          exact n2 j' hj'
      · intro x
        by_cases hx : x = (j : Int)
        · rw [if_pos hx]
          have := hp1 ((j : Int) - 1)
          omega
        · rw [if_neg hx]
          exact n3 x
      · rw [if_neg (by exact_mod_cast Nat.ne_of_gt hji : ¬ (i : Int) = (j : Int))]
        rcases n4 with ⟨hmem, h0⟩ | h4
        · rcases List.mem_cons.mp hmem with rfl | hmem'
          · omega
          · exact Or.inl ⟨hmem', h0⟩
        · exact Or.inr h4
      · rcases b3 with hmem | h
        · rcases List.mem_cons.mp hmem with rfl | hmem'
          · omega
          · exact Or.inl hmem'
        · exact Or.inr h
    · -- j = i: the diagonal column; its chain reaches exactly dAt l (i + 1)
      -- and the pending-diagonal flag resolves.
      subst heq
      have hk : prev ((j : Int) - 1) + 1 = dAt l (j + 1) := by rw [hp4, hdA]
      have hni : j ∉ js := fun h => absurd (hlt j h) (lt_irrefl j)
      by_cases hupd : best.2.2 < prev ((j : Int) - 1) + 1
      · rw [if_pos hupd]
        refine ih _ _ hsort' hsub' ?_ ?_ ?_ ?_ rfl ?_ ?_
        · intro x hx
          rw [if_neg (by omega : ¬ x = (j : Int))]
          exact n1 x hx
        · intro j' hj'
          rw [if_neg (by exact_mod_cast Nat.ne_of_lt hj' : ¬ (j' : Int) = (j : Int))]
          exact n2 j' hj'
        · intro x
          by_cases hx : x = (j : Int)
          · rw [if_pos hx]; omega
          · rw [if_neg hx]; exact n3 x
        · rw [if_pos rfl, hp4]
          exact Or.inr rfl
        · intro i' hi'
          have := b2 i' hi'
          dsimp only
          omega
        · refine Or.inr ?_
          dsimp only
          omega
      · rw [if_neg hupd]
        refine ih _ best hsort' hsub' ?_ ?_ ?_ ?_ b1 b2 ?_
        · intro x hx
          rw [if_neg (by omega : ¬ x = (j : Int))]
          exact n1 x hx
        · intro j' hj'
          rw [if_neg (by exact_mod_cast Nat.ne_of_lt hj' : ¬ (j' : Int) = (j : Int))]
          exact n2 j' hj'
        · intro x
          by_cases hx : x = (j : Int)
          · rw [if_pos hx]; omega
          · rw [if_neg hx]; exact n3 x
        · rw [if_pos rfl, hp4]
          exact Or.inr rfl
        · exact Or.inr (by omega)
    · -- i < j: the chain length is bounded by the diagonal chain, which the
      -- best size already dominates (the diagonal was processed earlier).
      have hni : i ∉ j :: js := by
        intro h
        rcases List.mem_cons.mp h with rfl | h'
        · omega
        · exact absurd (hlt i h') (by omega)
      have hbs : dAt l (i + 1) ≤ best.2.2 := by
        rcases b3 with hmem | h
        · exact absurd hmem hni
        · exact h
      have hkb : prev ((j : Int) - 1) + 1 ≤ best.2.2 := by
        have := hp1 ((j : Int) - 1)
        omega
      rw [if_neg (not_lt.mpr hkb)]
      refine ih _ best hsort' hsub' ?_ ?_ ?_ ?_ b1 b2 (Or.inr hbs)
      · intro x hx
        rw [if_neg (by omega : ¬ x = (j : Int))]
        exact n1 x hx
      · intro j' hj'
        rw [if_neg (by exact_mod_cast (by omega : j' ≠ j) : ¬ (j' : Int) = (j : Int))]
        exact n2 j' hj'
      · intro x
        by_cases hx : x = (j : Int)
        · rw [if_pos hx]
          have := hp1 ((j : Int) - 1)
          omega
        · rw [if_neg hx]
          exact n3 x
      · rw [if_neg (by exact_mod_cast Nat.ne_of_lt hij : ¬ (i : Int) = (j : Int))]
        rcases n4 with ⟨hmem, _⟩ | h4
        · exact absurd hmem hni
        · exact Or.inr h4


/-- The row fold of `phase1` for the self-comparison keeps the best block on
the diagonal. -/
lemma phase1FoldDiag (l : List α) (n : Nat) (hn : n = l.length) :
    ∀ (cnt row : Nat) (st : (Int → Nat) × (Nat × Nat × Nat)),
      row + cnt = n →
      (∀ x, st.1 x ≤ dAt l row) →
      (∀ x : Int, x < 0 → st.1 x = 0) →
      (∀ j : Nat, j < row → st.1 (j : Int) ≤ dAt l (j + 1)) →
      st.1 ((row : Int) - 1) = dAt l row →
      st.2.1 = st.2.2.1 →
      (∀ i', i' ≤ row → dAt l i' ≤ st.2.2.2) →
      ((List.range' row cnt).foldl
        (fun st i => innerLoop 0 n i st.1 (rowPositions l l i) (fun _ => 0) st.2)
        st).2.1 =
      ((List.range' row cnt).foldl
        (fun st i => innerLoop 0 n i st.1 (rowPositions l l i) (fun _ => 0) st.2)
        st).2.2.1 := by
  intro cnt
  induction cnt with
  | zero =>
    intro row st _ _ _ _ _ b1 _
    simpa using b1
  | succ cnt ih =>
    intro row st hcnt hp1 hp2 hp3 hp4 b1 b2
    rw [List.range'_succ, List.foldl_cons]
    by_cases hJ : rowPositions l l row = []
    · have hstep : innerLoop 0 n row st.1 (rowPositions l l row)
          (fun _ => 0) st.2 = ((fun _ => 0), st.2) := by
        rw [hJ, innerLoop]
      rw [hstep]
      have hd0 : dAt l (row + 1) = 0 := by rw [dAt, if_pos hJ]
      refine ih (row + 1) _ (by omega) ?_ ?_ ?_ ?_ b1 ?_
      · intro x; exact Nat.zero_le _
      · intro x _; rfl
      · intro j _; exact Nat.zero_le _
      · rw [hd0]
      · intro i' hi'
        rcases Nat.lt_succ_iff_lt_or_eq.mp (Nat.lt_succ_of_le hi') with h | rfl
        · exact b2 i' (by omega)
        · rw [hd0]; exact Nat.zero_le _
    · have hrow : row < n := by omega
      have hmem : row ∈ rowPositions l l row :=
        self_mem_rowPositions (hn ▸ hrow) hJ
      obtain ⟨c1, c2, c3, c4, c5, c6⟩ :=
        innerLoopDiag l n hn row hrow hJ st.1 hp1 hp2 hp3 hp4
          (rowPositions l l row) (fun _ => 0) st.2
          (rowPositions_sorted l l row) (fun _ h => h)
          (fun _ _ => rfl) (fun _ _ => Nat.zero_le _) (fun _ => Nat.zero_le _)
          (Or.inl ⟨hmem, rfl⟩) b1 b2 (Or.inl hmem)
      refine ih (row + 1) _ (by omega) c3 c1 c2 ?_ c5 c6
      rw [show ((row + 1 : Nat) : Int) - 1 = (row : Int) by push_cast; ring]
      exact c4

/-- `phase1` of the self-comparison returns a diagonal best block. -/
lemma phase1_self_diag (l : List α) :
    (phase1 l l 0 l.length 0 l.length).1 = (phase1 l l 0 l.length 0 l.length).2.1 := by
  unfold phase1
  refine phase1FoldDiag l l.length rfl (l.length - 0) 0
    ((fun _ => 0), (0, 0, 0)) (by omega) ?_ ?_ ?_ ?_ rfl ?_
  · intro x; exact Nat.zero_le _
  · intro x _; rfl
  · intro j h; omega
  · rfl
  · intro i' hi'
    have : i' = 0 := by omega
    subst this
    exact Nat.le_refl 0


/-- In the self-comparison every in-bounds position matches itself. -/
lemma elemEqB_self {l : List α} {t : Nat} (ht : t < l.length) :
    elemEqB l l t t = true := by
  cases hgt : l.get? t with
  | none =>
    rw [List.get?_eq_none] at hgt
    omega
  | some x =>
    rw [elemEqB, hgt]
    exact decide_eq_true rfl

/-- Extending a diagonal block leftwards from `(t, t, s)` reaches `(0, 0, t + s)`
when comparing a list with itself. -/
lemma extendLeft_self_diag (l : List α) :
    ∀ (t s : Nat), t + s ≤ l.length →
      extendLeft l l 0 0 t t s = (0, 0, t + s) := by
  intro t
  induction t with
  | zero =>
    intro s _
    cases s with
    | zero => rfl
    | succ s =>
      rw [Nat.zero_add]
      rw [extendLeft]
      intro i1 j1 h1 h2
      exact absurd h1 (by omega)
  | succ t ih =>
    intro s hs
    rw [extendLeft]
    rw [if_pos ⟨Nat.zero_le t, Nat.zero_le t, elemEqB_self (by omega)⟩]
    rw [ih (s + 1) (by omega)]
    rw [show t + (s + 1) = t + 1 + s by omega]

/-- Extending a diagonal block rightwards from `(0, 0, s)` reaches the full
length when comparing a list with itself. -/
lemma extendRight_self_diag (l : List α) :
    ∀ (rem s : Nat), s + rem = l.length →
      extendRight l l l.length l.length 0 0 rem s = l.length := by
  intro rem
  induction rem with
  | zero =>
    intro s hs
    rw [extendRight]
    omega
  | succ rem ih =>
    intro s hs
    rw [extendRight]
    rw [if_pos ⟨by omega, by omega, by
      have : 0 + s = s := Nat.zero_add s
      rw [this]
      exact elemEqB_self (by omega)⟩]
    exact ih (s + 1) (by omega)

/-- `find_longest_match` over the whole region of the self-comparison returns
the full diagonal block. -/
lemma find_longest_match_self (l : List α) :
    find_longest_match l l 0 l.length 0 l.length = ⟨0, 0, l.length⟩ := by
  have hdiag := phase1_self_diag l
  obtain ⟨hb1, hb2, hb3, hb4⟩ :=
    phase1_bounds l l 0 l.length 0 l.length (Nat.zero_le _) (Nat.zero_le _)
  have hL : extendLeft l l 0 0 (phase1 l l 0 l.length 0 l.length).1
      (phase1 l l 0 l.length 0 l.length).2.1
      (phase1 l l 0 l.length 0 l.length).2.2 =
      (0, 0, (phase1 l l 0 l.length 0 l.length).1 +
        (phase1 l l 0 l.length 0 l.length).2.2) := by
    rw [← hdiag]
    exact extendLeft_self_diag l _ _ hb2
  unfold find_longest_match
  simp only [hL]
  rw [extendRight_self_diag l _ _ (by omega)]


/-- The queue loop on an empty stack returns the accumulator for any pass
count. -/
lemma gmbLoop_empty_stack (a b : List α) :
    ∀ (fuel : Nat) (acc : List DiffMatch), gmbLoop a b fuel [] acc = acc := by
  intro fuel acc
  cases fuel with
  | zero => rfl
  | succ fuel => rfl

/-- `get_matching_blocks` of a non-empty list against itself is the full
diagonal block followed by the sentinel. -/
lemma get_matching_blocks_self (l : List α) (hne : l.length ≠ 0) :
    get_matching_blocks l l =
      [⟨0, 0, l.length⟩, ⟨l.length, l.length, 0⟩] := by
  unfold get_matching_blocks
  have h1 : gmbLoop l l (l.length + l.length + 1)
      [(0, l.length, 0, l.length)] [] = [⟨0, 0, l.length⟩] := by
    rw [gmbLoop]
    simp only [find_longest_match_self]
    rw [if_neg hne]
    rw [if_neg (by omega : ¬ (0 + l.length < l.length ∧ 0 + l.length < l.length))]
    rw [if_neg (by omega : ¬ ((0 : Nat) < 0 ∧ (0 : Nat) < 0))]
    rw [List.nil_append, List.nil_append]
    exact gmbLoop_empty_stack l l _ _
  rw [h1]
  have h2 : ([(⟨0, 0, l.length⟩ : DiffMatch)]).insertionSort matchLe =
      [⟨0, 0, l.length⟩] := rfl
  simp only [h2]
  rw [collapseBlocks]
  rw [if_pos ⟨rfl, rfl⟩]
  rw [collapseBlocks]
  rw [if_pos (by simpa using hne : 0 + l.length ≠ 0)]
  rw [show 0 + l.length = l.length from Nat.zero_add _]
  rfl

/-- Comparing a paragraph list with itself yields no changed ranges. -/
lemma detect_changed_ranges_self (l : List α) : detect_changed_ranges l l = [] := by
  rcases eq_or_ne l.length 0 with h0 | hne
  · rw [List.length_eq_zero] at h0
    subst h0
    rfl
  · unfold detect_changed_ranges get_opcodes
    rw [get_matching_blocks_self l hne]
    rw [opcodesLoop]
    rw [if_neg (by omega : ¬ ((0 : Nat) < 0 ∧ (0 : Nat) < 0))]
    rw [if_neg (by omega : ¬ (0 : Nat) < 0)]
    rw [if_neg (by omega : ¬ (0 : Nat) < 0)]
    rw [if_pos (by simpa using hne :
      (⟨0, 0, l.length⟩ : DiffMatch).size ≠ 0)]
    rw [opcodesLoop]
    rw [if_neg (by dsimp only; omega :
      ¬ (0 + l.length < (⟨l.length, l.length, 0⟩ : DiffMatch).i ∧
        0 + l.length < (⟨l.length, l.length, 0⟩ : DiffMatch).j))]
    rw [if_neg (by dsimp only; omega :
      ¬ 0 + l.length < (⟨l.length, l.length, 0⟩ : DiffMatch).i)]
    rw [if_neg (by dsimp only; omega :
      ¬ 0 + l.length < (⟨l.length, l.length, 0⟩ : DiffMatch).j)]
    rw [if_neg (by simp : ¬ (⟨l.length, l.length, 0⟩ : DiffMatch).size ≠ 0)]
    rw [opcodesLoop]
    simp [List.filter_cons]

end MatcherLemmas


/-- C1: **corrected.**  For every pair of paragraph sequences, each pair
`(start, end)` returned by `detect_changed_ranges(old, new)` satisfies
`0 ≤ start ≤ end + 1 ≤ len(new)` (pure deletions yield the degenerate
`start = end + 1`, refuting the claimed `start ≤ end`), the ranges are
pairwise disjoint and strictly ascending by start, and each non-`equal`
opcode contributes exactly one pair `(j1, j2 - 1)` spanning its destination
indices in `new`. -/
theorem detect_changed_ranges_ranges (old new : List PyStr) :
    (∀ r ∈ detect_changed_ranges old new,
      0 ≤ r.1 ∧ r.1 ≤ r.2 + 1 ∧ r.2 + 1 ≤ (new.length : Int)) ∧
    (detect_changed_ranges old new).Chain'
      (fun r1 r2 => r1.1 < r2.1 ∧ r1.2 < r2.1) ∧
    detect_changed_ranges old new =
      ((get_opcodes old new).filter
        (fun op => decide (op.tag ≠ DiffTag.equal))).map
        (fun op => ((op.b1 : Int), (op.b2 : Int) - 1)) := by
  obtain ⟨hb, hc⟩ := detect_changed_ranges_spec old new
  exact ⟨hb, hc, rfl⟩

/-- C1 counterexample to the claimed `start ≤ end`: deleting the second of
two paragraphs yields the single degenerate pair `(1, 0)` with
`start = 1 > 0 = end`. -/
theorem detect_changed_ranges_deletion_degenerate :
    detect_changed_ranges [['A'], ['B']] [['A']] = [(1, 0)] ∧ ¬ ((1 : Int) ≤ 0) := by
  exact ⟨by decide, by decide⟩

/-! ## `review_document`: atomic persistence (C4) and the no-change scenario
(C8) -/

/-- `splitCommaAux` never returns the empty list. -/
lemma splitCommaAux_ne_nil : ∀ (s cur : PyStr), splitCommaAux s cur ≠ []
  | [], cur => by rw [splitCommaAux]; exact List.cons_ne_nil _ _
  | c :: rest, cur => by
    rw [splitCommaAux]
    by_cases hc : c = ','
    · rw [if_pos hc]; exact List.cons_ne_nil _ _
    · rw [if_neg hc]; exact splitCommaAux_ne_nil rest (c :: cur)

/-- Joining the pieces of `splitCommaAux` restores the remaining text after
the reversed accumulator. -/
lemma joinComma_splitCommaAux :
    ∀ (s cur : PyStr), joinComma (splitCommaAux s cur) = cur.reverse ++ s
  | [], cur => by
    rw [splitCommaAux]
    unfold joinComma joinSep
    rw [List.append_nil]
  | c :: rest, cur => by
    rw [splitCommaAux]
    by_cases hc : c = ','
    · rw [if_pos hc]
      unfold joinComma
      rw [joinSep_cons_of_ne_nil _ _ _ (splitCommaAux_ne_nil rest [])]
      have := joinComma_splitCommaAux rest []
      unfold joinComma at this
      rw [this, hc]
      simp
    · rw [if_neg hc]
      have := joinComma_splitCommaAux rest (c :: cur)
      rw [this]
      simp

/-- `",".join(s.split(","))` is the identity. -/
lemma joinComma_splitComma (s : PyStr) : joinComma (splitComma s) = s := by
  rw [splitComma, joinComma_splitCommaAux]
  rfl

/-- C4: `review_document` performs at most one metadata write; when any step
raises, the exception propagates with no write at all (persisted state
untouched); when it returns normally, exactly one write has happened, at the
very end of the pipeline. -/
theorem review_document_atomic {ε : Type} (env : ReviewEnv ε)
    (suggest : PyStr → PyStr → Except ε SuggestResp)
    (hashFn : PyStr → PyStr → PyStr) :
    (review_document env suggest hashFn).2.length ≤ 1 ∧
    (∀ e, (review_document env suggest hashFn).1 = .error e →
      (review_document env suggest hashFn).2 = []) ∧
    (∀ items, (review_document env suggest hashFn).1 = .ok items →
      (review_document env suggest hashFn).2.length = 1) := by
  unfold review_document
  cases env.getAppProperties with
  | error e => exact ⟨by simp, fun _ _ => rfl, fun items h => by simp at h⟩
  | ok pr =>
    obtain ⟨appProperties, headRevision⟩ := pr
    dsimp only
    cases env.getShareMessage with
    | error e => exact ⟨by simp, fun _ _ => rfl, fun items h => by simp at h⟩
    | ok context =>
      dsimp only
      cases env.getDocumentParagraphs with
      | error e => exact ⟨by simp, fun _ _ => rfl, fun items h => by simp at h⟩
      | ok currentParagraphs =>
        dsimp only
        cases loadOldParagraphs env appProperties with
        | error e => exact ⟨by simp, fun _ _ => by simp, fun items h => by simp at h⟩
        | ok oldParagraphs =>
          dsimp only
          cases process_changed_ranges currentParagraphs
              (detect_changed_ranges oldParagraphs currentParagraphs)
              suggest context 800 with
          | error e => exact ⟨by simp, fun _ _ => rfl, fun items h => by simp at h⟩
          | ok items =>
            dsimp only
            exact ⟨by simp, fun e h => by simp at h, fun items' h => by simp⟩

/-- C4 witness: a concrete successful run performs exactly one write. -/
theorem review_document_atomic_witness :
    (review_document (ε := Unit)
      ⟨.ok ([], ['r']), .ok [], .ok [], fun _ => .ok []⟩
      (fun _ _ => .ok ⟨[], ['s'], []⟩) (fun s q => s ++ q)).1 = .ok [] ∧
    (review_document (ε := Unit)
      ⟨.ok ([], ['r']), .ok [], .ok [], fun _ => .ok []⟩
      (fun _ _ => .ok ⟨[], ['s'], []⟩) (fun s q => s ++ q)).2.length = 1 := by
  refine ⟨rfl, ?_⟩
  exact (review_document_atomic (ε := Unit)
    ⟨.ok ([], ['r']), .ok [], .ok [], fun _ => .ok []⟩
    (fun _ _ => .ok ⟨[], ['s'], []⟩) (fun s q => s ++ q)).2.2 [] rfl

/-- Re-pruning a loaded ledger that fits the byte budget returns it
unchanged (a missing or empty stored value loads as the empty list and
re-joins to `""`). -/
lemma prune_hashes_loaded (stored : PyStr) (B : Nat) (h : utf8Len stored ≤ B) :
    prune_hashes (if stored = [] then [] else splitComma stored) B = stored := by
  by_cases hs : stored = []
  · subst hs
    rw [if_pos rfl]
    unfold prune_hashes
    show (if utf8Len (joinComma []) ≤ B then joinComma []
      else pruneWhile B []) = []
    rw [if_pos (show utf8Len (joinComma []) ≤ B from Nat.zero_le B)]
    rfl
  · rw [if_neg hs]
    unfold prune_hashes
    show (if utf8Len (joinComma (splitComma stored)) ≤ B then
        joinComma (splitComma stored)
      else pruneWhile B (splitComma stored)) = stored
    rw [joinComma_splitComma]
    rw [if_pos h]

/-- C8: **corrected.**  When the current and previously reviewed paragraph
sequences are equal, `review_document` returns an empty item list and issues
exactly one metadata write whose ledger value equals the loaded one —
provided the loaded ledger fits the available byte budget
(`124 - len("suggestionHashes") = 108` bytes; a stored value over the budget
is pruned on write-back, so written ≠ loaded in that edge case) — and the
revision pointer is set to the current head revision. -/
theorem review_document_no_changes {ε : Type} (env : ReviewEnv ε)
    (suggest : PyStr → PyStr → Except ε SuggestResp)
    (hashFn : PyStr → PyStr → PyStr)
    (props : List (PyStr × PyStr)) (headRevision context : PyStr)
    (paras : List PyStr) (rev oldText : PyStr)
    (h1 : env.getAppProperties = .ok (props, headRevision))
    (h2 : env.getShareMessage = .ok context)
    (h3 : env.getDocumentParagraphs = .ok paras)
    (h4 : mapGet props lastReviewedRevisionKey = some rev)
    (h5 : rev ≠ [])
    (h6 : env.downloadRevisionText rev = .ok oldText)
    (h7 : splitlines oldText = paras)
    (h8 : utf8Len ((mapGet props suggestionHashesKey).getD []) ≤
      maxAppPropertyBytes - suggestionHashesKey.length) :
    review_document env suggest hashFn =
      (.ok [],
       [mapSet (mapSet props suggestionHashesKey
          ((mapGet props suggestionHashesKey).getD []))
          lastReviewedRevisionKey headRevision]) := by
  have hold : loadOldParagraphs env props = .ok paras := by
    unfold loadOldParagraphs
    rw [h4]
    dsimp only
    rw [if_neg h5, h6]
    dsimp only
    rw [h7]
  unfold review_document
  rw [h1]
  dsimp only
  rw [h2]
  dsimp only
  rw [h3]
  dsimp only
  rw [hold]
  dsimp only
  rw [detect_changed_ranges_self]
  have hpr : process_changed_ranges paras [] suggest context 800 = .ok [] := rfl
  rw [hpr]
  dsimp only
  simp only [deduplicate_suggestions, List.map_nil, List.append_nil]
  rw [prune_hashes_loaded _ _ h8]

/-- C8 witness: a concrete document whose current text equals the reviewed
revision, with a stored two-hash ledger within budget, yields no items and
one write restoring the ledger and advancing the pointer. -/
theorem review_document_no_changes_witness :
    review_document (ε := Unit)
      ⟨.ok ([(suggestionHashesKey, "h1,h2".toList),
             (lastReviewedRevisionKey, "r0".toList)], "r1".toList),
       .ok [], .ok [['A']], fun _ => .ok ['A']⟩
      (fun _ _ => .ok ⟨[], ['s'], []⟩) (fun s q => s ++ q) =
      (.ok [],
       [mapSet (mapSet [(suggestionHashesKey, "h1,h2".toList),
           (lastReviewedRevisionKey, "r0".toList)] suggestionHashesKey
           "h1,h2".toList)
          lastReviewedRevisionKey "r1".toList]) := by
  exact review_document_no_changes (ε := Unit)
    ⟨.ok ([(suggestionHashesKey, "h1,h2".toList),
           (lastReviewedRevisionKey, "r0".toList)], "r1".toList),
     .ok [], .ok [['A']], fun _ => .ok ['A']⟩
    (fun _ _ => .ok ⟨[], ['s'], []⟩) (fun s q => s ++ q)
    [(suggestionHashesKey, "h1,h2".toList),
     (lastReviewedRevisionKey, "r0".toList)]
    "r1".toList [] [['A']] "r0".toList ['A']
    rfl rfl rfl (by decide) (by decide) rfl (by decide) (by decide)

/-- C8 counterexample to "the ledger value written back equals the ledger
value that was loaded": a stored ledger of 109 bytes exceeds the 108-byte
budget, so the no-change run writes back `""` instead of the loaded value. -/
theorem review_document_ledger_pruned_counterexample :
    (review_document (ε := Unit)
      ⟨.ok ([(suggestionHashesKey, List.replicate 109 'a')], ['r']),
       .ok [], .ok [], fun _ => .ok []⟩
      (fun _ _ => .ok ⟨[], ['s'], []⟩) (fun s q => s ++ q)).2 =
      [[(suggestionHashesKey, []), (lastReviewedRevisionKey, ['r'])]] ∧
    List.replicate 109 'a' ≠ ([] : PyStr) := by
  exact ⟨by decide, by decide⟩

end ClearMyBoss

